import Mathlib

/-!
Shallow embedding of the zone-based trajectory tagging engine of
`windows_slide_tagging.py`.  The source computes with Python floats; the
embedding models that arithmetic as exact rational arithmetic, and every
square-root comparison of the source is embedded as the equivalent
comparison of squares (all compared quantities are nonnegative).  The
zone table (`ZONE_POLYGON` in the source, built once from external map
files) is passed to every consumer as an explicit parameter.
-/

-- The rational-arithmetic primitives are `@[irreducible]` in the library,
-- which blocks elaborator-side evaluation of concrete runs of the engine
-- (kernel checking is unaffected by reducibility attributes).  Restore
-- default transparency so `decide` can evaluate the embedding.
set_option allowUnsafeReducibility true
attribute [semireducible] Rat.add Rat.sub Rat.mul Rat.inv Rat.neg
set_option maxRecDepth 1000000

/-- A planar point: the (x, y) projection the tagging engine works on. -/
abbrev Pt := ℚ × ℚ

/-- A polygon, as stored in the zone table: a list of vertices. -/
abbrev ZPolygon := List Pt

/-- The zone table: zone name to polygon list, in the fixed iteration
order of the source dictionary. -/
abbrev ZoneTable := List (String × List ZPolygon)

/-- The edge sequence traversed by the loop of `is_point_in_polygon`:
the pairs `(polygon[i-1], polygon[i % n])` for `i = 1 .. n`. -/
def polyEdges (poly : ZPolygon) : List (Pt × Pt) :=
  poly.zip (poly.rotate 1)

/-- Loop state of the ray-casting scan: the parity bit and the value of
the loop-local variable `xinters`, which is `none` while it has never
been assigned (in the source the variable simply does not exist yet). -/
structure RayState where
  inside : Bool
  xinters : Option ℚ
deriving DecidableEq

/-- One iteration of the ray-casting loop of `is_point_in_polygon`.
Reading `xinters` before any assignment is the failure `none` (the
unbound-name error the source would raise).  The disjunction
`px1 = px2 or x <= xinters` short-circuits as in the source, so
`xinters` is only read when `px1 ≠ px2`. -/
def rayStep (x y : ℚ) (s : RayState) : Pt × Pt → Option RayState
  | ((px1, py1), (px2, py2)) =>
    if y > min py1 py2 ∧ y ≤ max py1 py2 ∧ x ≤ max px1 px2 then
      if px1 = px2 then
        some ⟨!s.inside,
          if py1 ≠ py2 then some ((y - py1) * (px2 - px1) / (py2 - py1) + px1) else s.xinters⟩
      else
        match (if py1 ≠ py2 then some ((y - py1) * (px2 - px1) / (py2 - py1) + px1)
               else s.xinters) with
        | none => none
        | some v => if x ≤ v then some ⟨!s.inside, some v⟩ else some ⟨s.inside, some v⟩
    else some s

/-- Instrumented point-in-polygon test: `none` exactly when the source
would read `xinters` unassigned. -/
def is_point_in_polygon_checked (p : Pt) (poly : ZPolygon) : Option Bool :=
  ((polyEdges poly).foldlM (rayStep p.1 p.2) ⟨false, none⟩).map (fun s => s.inside)

/-- Ray-casting point-in-polygon test (`is_point_in_polygon`).  Theorem
`C9_ray_casting_total` shows the instrumented run never fails, so the
`getD` default is unreachable.  The source raises an index error on an
empty vertex list; here the empty polygon yields `false`, and no claim
touches that case. -/
def is_point_in_polygon (p : Pt) (poly : ZPolygon) : Bool :=
  (is_point_in_polygon_checked p poly).getD false

/-- `get_zone`: the first zone (in table iteration order) one of whose
polygons contains the point; `none` when no zone matches. -/
def get_zone (table : ZoneTable) (p : Pt) : Option String :=
  (table.find? (fun zp => zp.2.any (fun poly => is_point_in_polygon p poly))).map (fun zp => zp.1)

/-- Loop state of `find_first_last_zone`: the locals `first_zone`,
`last_zone`, `prev_zone`, `count`.  The local `stable_zone` is only read
immediately after being written, so it is not carried. -/
structure FLState where
  first : Option String
  last : Option String
  prev : Option String
  count : Nat
deriving DecidableEq

/-- The threshold check at the end of each `find_first_last_zone`
iteration: on `count >= min_frames` the current `zone` becomes the
stable zone, seeding `first_zone` if unset and overwriting `last_zone`. -/
def flzCheck (min_frames : Nat) (s : FLState) (zone : Option String) : FLState :=
  if s.count ≥ min_frames then
    { s with first := if s.first = none then zone else s.first, last := zone }
  else s

/-- One iteration of the `find_first_last_zone` loop, applied to the
zone lookup of the current point: extend the run if the zone equals
`prev_zone` and is not `none`, otherwise restart the counter at 1. -/
def flzStep (min_frames : Nat) (s : FLState) (zone : Option String) : FLState :=
  if zone = s.prev ∧ zone ≠ none then
    flzCheck min_frames { s with count := s.count + 1 } zone
  else
    flzCheck min_frames { s with prev := zone, count := 1 } zone

/-- Initial state of the `find_first_last_zone` loop. -/
def initFL : FLState := ⟨none, none, none, 0⟩

/-- The `find_first_last_zone` loop run directly on a list of
zone-lookup results. -/
def flzRun (min_frames : Nat) (zs : List (Option String)) (s : FLState) : FLState :=
  zs.foldl (flzStep min_frames) s

/-- `find_first_last_zone`: first and last stable zone of a trajectory.
The source performs an unused `get_zone(trajectory[0])` before the loop,
which raises on an empty trajectory; the embedding returns `none` there
and otherwise runs the loop over every point (trajectory points are the
(x, y) pairs; the source slices `pt[-2:]`, the identity on pairs). -/
def find_first_last_zone (table : ZoneTable) (trajectory : List Pt) (min_frames : Nat) :
    Option (Option String × Option String) :=
  match trajectory with
  | [] => none
  | _ :: _ =>
      let fin := flzRun min_frames (trajectory.map (get_zone table)) initFL
      some (fin.first, fin.last)

/-- Python `str.split(sep)` on character lists (for a one-character
separator): every separator occurrence splits, and the result always has
at least one (possibly empty) part. -/
def pySplit (c : Char) : List Char → List (List Char)
  | [] => [[]]
  | x :: xs =>
    if x = c then [] :: pySplit c xs
    else
      match pySplit c xs with
      | [] => [[x]]
      | h :: t => (x :: h) :: t

/-- The road-group token of a zone name: `zone.split('_')[0]`. -/
def roadToken (z : String) : List Char :=
  (pySplit '_' z.data).headD []

/-- The lane token of a zone name: `zone.split('_')[1]`, `none` when the
index is out of range (the source would raise there). -/
def laneToken (z : String) : Option (List Char) :=
  (pySplit '_' z.data).get? 1

/-- The right-turn adjacency table of `check_turn`. -/
def right_turn : List (List Char × List Char) :=
  [("RI".data, "RII".data), ("RII".data, "RIII".data), ("RIII".data, "RIV".data),
   ("RIV".data, "RI".data), ("RV".data, "RI".data)]

/-- The left-turn adjacency table of `check_turn`. -/
def left_turn : List (List Char × List Char) :=
  [("RI".data, "RIV".data), ("RIV".data, "RIII".data), ("RIII".data, "RII".data),
   ("RII".data, "RI".data)]

/-- The straight adjacency table of `check_turn`. -/
def straight : List (List Char × List Char) :=
  [("RI".data, "RIII".data), ("RIII".data, "RI".data), ("RII".data, "RIV".data),
   ("RIV".data, "RII".data)]

/-- `check_turn`: does the (start road-group, end road-group) pair match
the table of `tag`?  The source also extracts the (unused) lane tokens
`split('_')[1]` of both zones before dispatching, raising an index error
when a zone name has no underscore; that failure is the `none` result. -/
def check_turn (start_zone end_zone : String) (tag : String) : Option Bool :=
  match laneToken start_zone, laneToken end_zone with
  | some _, some _ =>
      let start_road := roadToken start_zone
      let end_road := roadToken end_zone
      if tag = "右轉" then some (decide ((start_road, end_road) ∈ right_turn))
      else if tag = "左轉" then some (decide ((start_road, end_road) ∈ left_turn))
      else if tag = "直行" then some (decide ((start_road, end_road) ∈ straight))
      else some false
  | _, _ => none

/-- The turn-classification chain of `trajectory_tag_match`: try the
right-turn, left-turn and straight tables in that order; `some none`
when no table matches, `none` when `check_turn` raises. -/
def classifyTurn (start_zone end_zone : String) : Option (Option String) :=
  match check_turn start_zone end_zone "右轉" with
  | none => none
  | some true => some (some "右轉")
  | some false =>
    match check_turn start_zone end_zone "左轉" with
    | none => none
    | some true => some (some "左轉")
    | some false =>
      match check_turn start_zone end_zone "直行" with
      | none => none
      | some true => some (some "直行")
      | some false => some none

/-- The English directional turn tags of `tag_post_process`. -/
def turning_tags : List String := ["turning_left", "turning_right"]

/-- The Chinese directional turn tags of `tag_post_process`. -/
def chinese_turn_tags : List String := ["左轉", "右轉"]

/-- The keep-predicate of the `tag_post_process` loop: a tag is dropped
iff one of the four conflict rules applies.  The source computes
`has_straight` as the nonemptiness of the intersection of the singleton
straight-tag set with the input tag set, i.e. the presence of the
straight tag; `has_both_turns` and `has_both_chinese_turns` likewise are
memberships in the input tag set.  (The source also computes
`has_turning` and `has_chinese_turn`, which its filter never reads.) -/
def tppKeep (action_tags : List String) (tag : String) : Bool :=
  !(decide (tag ∈ turning_tags) && decide ("直行" ∈ action_tags)
    || decide (tag ∈ chinese_turn_tags) && decide ("直行" ∈ action_tags)
    || decide (tag ∈ turning_tags) &&
        decide ("turning_left" ∈ action_tags ∧ "turning_right" ∈ action_tags)
    || decide (tag ∈ chinese_turn_tags) && decide ("左轉" ∈ action_tags ∧ "右轉" ∈ action_tags))

/-- `tag_post_process`: filter the tag list by the conflict rules,
preserving order; the empty list is returned unchanged. -/
def tag_post_process (action_tags : List String) : List String :=
  if action_tags = [] then action_tags
  else action_tags.filter (tppKeep action_tags)

/-- The speed band of `calculate_speed_tags`.  The source compares
`sqrt(vx^2 + vy^2)` with 0.5, 2.0 and 8.0; the embedding compares the
square of the speed with the squared thresholds, which is equivalent
since both sides are nonnegative (theorem `C7_speed_tags` states the
claim through the real square root). -/
def speedTagOf (vx vy : ℚ) : String :=
  if vx ^ 2 + vy ^ 2 < (1 / 2) ^ 2 then "stopped"
  else if vx ^ 2 + vy ^ 2 < 2 ^ 2 then "slow"
  else if vx ^ 2 + vy ^ 2 < 8 ^ 2 then "normal"
  else "fast"

/-- The acceleration band of `calculate_speed_tags`. -/
def accelTagOf (lon_acceleration : ℚ) : String :=
  if lon_acceleration > 1 then "accelerating"
  else if lon_acceleration < -1 then "decelerating"
  else "constant_speed"

/-- `calculate_speed_tags`: the two-element tag list [speed band,
acceleration band].  The source also computes `total_accel` from the
acceleration pair and never reads it; lon_velocity, lat_velocity and
lat_acceleration are likewise accepted and unused, as in the source. -/
def calculate_speed_tags (velocity acceleration : ℚ × ℚ)
    (lon_velocity lat_velocity lon_acceleration lat_acceleration : ℚ) : List String :=
  [speedTagOf velocity.1 velocity.2, accelTagOf lon_acceleration]

/-- Minimum of two optional rationals where `none` is plus infinity
(the float `inf` the source starts its minima from). -/
def minInf (a b : Option ℚ) : Option ℚ :=
  match a, b with
  | none, b => b
  | some x, none => some x
  | some x, some y => some (min x y)

/-- Squared distance from a point to a segment, following the
projection-and-clamp computation of `get_distance_to_intersection` (the
source takes the square root of this; every comparison is embedded on
squares). -/
def distSqPointSeg (px py : ℚ) : Pt × Pt → ℚ
  | ((x1, y1), (x2, y2)) =>
    let A := px - x1
    let B := py - y1
    let C := x2 - x1
    let D := y2 - y1
    let dot := A * C + B * D
    let len_sq := C * C + D * D
    if len_sq = 0 then A * A + B * B
    else
      let param := dot / len_sq
      if param < 0 then (px - x1) ^ 2 + (py - y1) ^ 2
      else if param > 1 then (px - x2) ^ 2 + (py - y2) ^ 2
      else (px - (x1 + param * C)) ^ 2 + (py - (y1 + param * D)) ^ 2

/-- Minimum squared distance from a point to one polygon of an
intersection zone: the minimum over all edges (infinity for an edgeless
polygon), overwritten with 0 when the point lies inside, exactly as in
the per-polygon block of `get_distance_to_intersection`. -/
def minPolyDistSq (p : Pt) (poly : ZPolygon) : Option ℚ :=
  if is_point_in_polygon p poly then some 0
  else
    (polyEdges poly).foldl (fun acc e => minInf acc (some (distSqPointSeg p.1 p.2 e))) none

/-- All polygons of zones whose name starts with INT_, in table order
(the polygons the `get_distance_to_intersection` loops visit). -/
def intPolysOf (table : ZoneTable) : List ZPolygon :=
  ((table.filter (fun zp => "INT_".data.isPrefixOf zp.1.data)).map (fun zp => zp.2)).flatten

/-- `get_distance_to_intersection` (squared embedding): the minimum of
`minPolyDistSq` over all intersection-zone polygons, returned (as a
squared distance) only when it is at most the squared `max_distance`.
`found_intersection` is subsumed: when no intersection polygon exists
the minimum stays at infinity and the result is `none` either way.
Faithful to the source for `max_distance ≥ 0` (the claims assume this)
and for polygons with at least one vertex. -/
def get_distance_to_intersection (table : ZoneTable) (p : Pt) (max_distance : ℚ) :
    Option ℚ :=
  match (intPolysOf table).foldl (fun acc poly => minInf acc (minPolyDistSq p poly)) none with
  | none => none
  | some d => if d ≤ max_distance ^ 2 then some d else none

/-- A window verdict of `trajectory_tag_match`: the record appended per
window. -/
structure WindowResult where
  trackId : Nat
  start_frame : Nat
  end_frame : Nat
  start_zone : Option String
  end_zone : Option String
  turn_tag : Option String
  match_target : Bool
  target_tag : String
deriving DecidableEq

/-- Python truthiness of an optional zone name: `None` and the empty
string are falsy. -/
def pyTruthy : Option String → Bool
  | none => false
  | some s => decide (s ≠ "")

/-- Python `range(0, stop, step)` for nonnegative stop: the multiples of
`step` below `stop` (`stop` is passed as the already-truncated natural
`len(trajectory) - window_size + 1`, i.e. `n + 1 - ws` in ℕ, which is 0
whenever the Python value would be nonpositive).  For `step = 0` the
source raises; the claims use positive steps. -/
def pyRange0 (stop step : Nat) : List Nat :=
  (List.range ((stop + step - 1) / step)).map (fun i => i * step)

/-- One window of `trajectory_tag_match`: slices the trajectory, finds
the stable zones, classifies the turn.  Outer `none` is a raised error
(empty window, or a zone name without underscore inside `check_turn`);
`some none` is the `continue` that skips the window when both stable
zones exist but no adjacency table matches; `some (some w)` is a
recorded verdict. -/
def windowVerdict (table : ZoneTable) (tag : String) (tid : Nat) (ws mf : Nat)
    (traj : List Pt) (start : Nat) : Option (Option WindowResult) :=
  match find_first_last_zone table ((traj.drop start).take ws) mf with
  | none => none
  | some (start_zone, end_zone) =>
    if pyTruthy start_zone && pyTruthy end_zone then
      match start_zone, end_zone with
      | some sz, some ez =>
        match classifyTurn sz ez with
        | none => none
        | some (some t) =>
            some (some ⟨tid, start, start + ws - 1, some sz, some ez, some t,
              decide (tag = t), tag⟩)
        | some none => some none
      | _, _ => some none
    else
      some (some ⟨tid, start, start + ws - 1, start_zone, end_zone, none, false, tag⟩)

/-- The window loop of `trajectory_tag_match`: collect the recorded
verdicts in order, dropping skipped windows, failing if any window
raises. -/
def ttmGo (f : Nat → Option (Option WindowResult)) : List Nat → Option (List WindowResult)
  | [] => some []
  | s :: rest =>
    match f s with
    | none => none
    | some none => ttmGo f rest
    | some (some w) => (ttmGo f rest).map (fun tl => w :: tl)

/-- `trajectory_tag_match`: the sliding-window matcher.  Returns `none`
when some window raises (see `windowVerdict`), otherwise the list of
recorded verdicts. -/
def trajectory_tag_match (table : ZoneTable) (traj : List Pt) (tag : String) (tid : Nat)
    (window_size slide_step min_frames : Nat) : Option (List WindowResult) :=
  ttmGo (windowVerdict table tag tid window_size min_frames traj)
    (pyRange0 (traj.length + 1 - window_size) slide_step)

/-- The skip condition of a window: both stable zones found (truthy)
but the pair is in no adjacency table. -/
def windowSkipped (table : ZoneTable) (traj : List Pt) (ws mf start : Nat) : Bool :=
  match find_first_last_zone table ((traj.drop start).take ws) mf with
  | some (some sz, some ez) =>
      pyTruthy (some sz) && pyTruthy (some ez) && decide (classifyTurn sz ez = some none)
  | _ => false

/-- Synthetic zone polygons for concrete runs: disjoint axis-aligned
squares, one per zone name exercised by the claims. -/
def sqRI : ZPolygon := [(0, 0), (10, 0), (10, 10), (0, 10)]

/-- Square polygon of the synthetic intersection zone. -/
def sqINT : ZPolygon := [(20, 0), (30, 0), (30, 10), (20, 10)]

/-- Square polygon of the synthetic zone RIV_1. -/
def sqRIV : ZPolygon := [(40, 0), (50, 0), (50, 10), (40, 10)]

/-- Square polygon of the synthetic zone RII_1. -/
def sqRII : ZPolygon := [(60, 0), (70, 0), (70, 10), (60, 10)]

/-- Square polygon of the synthetic zone RV_1. -/
def sqRV : ZPolygon := [(80, 0), (90, 0), (90, 10), (80, 10)]

/-- A synthetic zone table with the zone names the claims exercise
(zone names of the configured zone mapping all have the form
road-group, underscore, signed lane index, or INT_ id). -/
def testTable : ZoneTable :=
  [("RI_1", [sqRI]), ("INT_1", [sqINT]), ("RIV_1", [sqRIV]), ("RII_1", [sqRII]),
   ("RV_1", [sqRV])]

/-- Deduplication keeping first occurrences (`dict.fromkeys`), with the
set of already-seen tags accumulated. -/
def dedupFirstGo (seen : List String) : List String → List String
  | [] => []
  | x :: xs => if x ∈ seen then dedupFirstGo seen xs else x :: dedupFirstGo (x :: seen) xs

/-- Deduplicate a tag list preserving first-seen order. -/
def dedupFirst (l : List String) : List String := dedupFirstGo [] l

/-- Python `l[-k:]` for `k ≥ 1`: the last `k` elements (all of them when
`k ≥ len(l)`). -/
def takeLastN {α : Type} (k : Nat) (l : List α) : List α := l.drop (l.length - k)

/-- `zone.rsplit('_', 1)[0]`: the characters before the last underscore
(meaningful only when the name contains one; callers guard on that). -/
def rsplitRoad (z : String) : List Char :=
  ((z.data.reverse.dropWhile (fun c => c ≠ '_')).drop 1).reverse

/-- `zone.rsplit('_', 1)[1]`: the characters after the last
underscore. -/
def rsplitLane (z : String) : List Char :=
  (z.data.reverse.takeWhile (fun c => c ≠ '_')).reverse

/-- Digit-string parsing for Python `int()` (no sign). -/
def parseDigits (l : List Char) : Option Nat :=
  match l with
  | [] => none
  | _ => l.foldl (fun acc c =>
      acc.bind (fun n => if c.isDigit then some (n * 10 + (c.toNat - '0'.toNat)) else none))
      (some 0)

/-- Python `int()` on a lane token: optional sign then digits; `none`
models the ValueError the source catches with `pass`. -/
def parseIntOpt (l : List Char) : Option Int :=
  match l with
  | '-' :: ds => (parseDigits ds).map (fun n => -(n : Int))
  | '+' :: ds => (parseDigits ds).map (fun n => (n : Int))
  | ds => (parseDigits ds).map (fun n => (n : Int))

/-- The forward stable-lane scan of `calculate_action_tags`: at each
position with at least two successors, count how many of the next (up
to four) zones equal the current one; the first zone reaching three in
a row wins. -/
def findStableFwd : List String → Option String
  | [] => none
  | x :: xs =>
      if 2 ≤ xs.length then
        if 3 ≤ 1 + ((xs.take 4).takeWhile (fun z => z = x)).length then some x
        else findStableFwd xs
      else none

/-- The backward stable-lane scan: the source iterates from the last
position down to index 2, counting up to four predecessors — which is
exactly the forward scan on the reversed list. -/
def findStableBwd (l : List String) : Option String := findStableFwd l.reverse

/-- The lane-change decision of `calculate_action_tags`: with enough
history, find stable start and end lanes inside the lookback window; if
they share the road token but differ in (integer) lane index, the
direction is `some (end_lane > start_lane)` (`true` = right); every
other path — including the caught ValueError of a non-integer lane
token — decides `none`. -/
def laneChangeDir (previous_zones : List (Option String)) (current_zone : Option String) :
    Option Bool :=
  if 10 ≤ previous_zones.length then
    let zone_window := takeLastN (min 60 previous_zones.length) previous_zones ++ [current_zone]
    let valid_zones := zone_window.filterMap id
    if 10 ≤ valid_zones.length then
      match findStableFwd valid_zones, findStableBwd valid_zones with
      | some s, some e =>
          if s ≠ "" ∧ e ≠ "" ∧ s ≠ e ∧ '_' ∈ s.data ∧ '_' ∈ e.data then
            if rsplitRoad s = rsplitRoad e then
              match parseIntOpt (rsplitLane s), parseIntOpt (rsplitLane e) with
              | some sl, some el => if sl ≠ el then some (el > sl) else none
              | _, _ => none
            else none
          else none
      | _, _ => none
    else none
  else none

/-- The lane-change tags emitted for a decision: the directional tag
followed by the generic `lane_change` tag. -/
def laneChangeTags (previous_zones : List (Option String)) (current_zone : Option String) :
    List String :=
  match laneChangeDir previous_zones current_zone with
  | some true => ["lane_change_right", "lane_change"]
  | some false => ["lane_change_left", "lane_change"]
  | none => []

/-- The wrapped heading differences of consecutive points (angles
folded into (-180, 180]). -/
def headingDiffs : List ℚ → List ℚ
  | a :: b :: rest =>
      (if b - a > 180 then b - a - 360
       else if b - a < -180 then b - a + 360
       else b - a) :: headingDiffs (b :: rest)
  | _ => []

/-- The turn-detection block of `calculate_action_tags`: with at least
100 previous points, sum the wrapped heading changes over the last 100
points; fire only at or within 3 units of an intersection zone.
(Previous points are (x, y, heading) triples, so the source's
`pt[2] if len(pt) > 2 else heading` fallback is dead.) -/
def turningDir (table : ZoneTable) (current_point : ℚ × ℚ × ℚ)
    (previous_points : List (ℚ × ℚ × ℚ)) (current_zone : Option String) : Option Bool :=
  if 100 ≤ previous_points.length then
    let prev_headings := (takeLastN 100 previous_points).map (fun pt => pt.2.2)
    let sum_heading_change := (headingDiffs prev_headings).sum
    let is_at_intersection := match current_zone with
      | some z => "INT_".data.isPrefixOf z.data
      | none => false
    let is_near_intersection :=
      (get_distance_to_intersection table (current_point.1, current_point.2.1) 3).isSome
    if is_at_intersection || is_near_intersection then
      if sum_heading_change > 7 then some true
      else if sum_heading_change < -7 then some false
      else none
    else none
  else none

/-- The turn tags emitted for a turn decision (`true` = left). -/
def turningTags (table : ZoneTable) (current_point : ℚ × ℚ × ℚ)
    (previous_points : List (ℚ × ℚ × ℚ)) (current_zone : Option String) : List String :=
  match turningDir table current_point previous_points current_zone with
  | some true => ["turning_left"]
  | some false => ["turning_right"]
  | none => []

/-- `calculate_action_tags`: movement tag (waiting/moving by planar
speed, squared embedding of the `sqrt < 0.5` test), then the
lane-change tags, then the turn tags.  `heading` is accepted and (as in
the source, whose only use of it is the dead tuple-length fallback)
unused. -/
def calculate_action_tags (table : ZoneTable) (current_point : ℚ × ℚ × ℚ)
    (previous_points : List (ℚ × ℚ × ℚ)) (current_zone : Option String)
    (previous_zones : List (Option String)) (velocity : ℚ × ℚ) (heading : ℚ) : List String :=
  (if velocity.1 ^ 2 + velocity.2 ^ 2 < (1 / 2 : ℚ) ^ 2 then ["waiting"] else ["moving"])
    ++ laneChangeTags previous_zones current_zone
    ++ turningTags table current_point previous_points current_zone

/-- One row of the per-track kinematic table. -/
structure TrackRow where
  frame : Int
  xCenter : ℚ
  yCenter : ℚ
  heading : ℚ
  xVelocity : ℚ
  yVelocity : ℚ
  xAcceleration : ℚ
  yAcceleration : ℚ
  lonVelocity : ℚ
  latVelocity : ℚ
  lonAcceleration : ℚ
  latAcceleration : ℚ
deriving DecidableEq

/-- One emitted frame tag record. -/
structure FrameResult where
  trackId : Nat
  frame : Int
  action_tags : List String
  speed_tags : List String
deriving DecidableEq

/-- The `frame_to_window_tags` dictionary: a frame index covered by at
least one window maps to the (possibly empty) list of truthy turn tags
of the windows covering it, in window order. -/
def frame_to_window_tags (wrs : List WindowResult) (i : Nat) : Option (List String) :=
  if wrs.any (fun w => decide (w.start_frame ≤ i) && decide (i ≤ w.end_frame)) then
    some ((wrs.filter (fun w => decide (w.start_frame ≤ i) && decide (i ≤ w.end_frame))).filterMap
      (fun w => match w.turn_tag with
        | some t => if t = "" then none else some t
        | none => none))
  else none

/-- The window-size loop of `analyze_trajectory_frame_by_frame` always
breaks after its first iteration (`window_results is not None` holds
for every list), so only `window_size = min(len(trajectory), 330)` with
`slide_step = 30`, `min_frames = 6` is ever used. -/
def analyzeWindowResults (table : ZoneTable) (traj : List Pt) (target_tag : String)
    (tid : Nat) : Option (List WindowResult) :=
  trajectory_tag_match table traj target_tag tid (min traj.length 330) 30 6

/-- The bounded-history guard: append, then drop the oldest entry when
over 500. -/
def trimHistory {α : Type} (l : List α) : List α :=
  if 500 < l.length then l.drop 1 else l

/-- The per-frame loop of `analyze_trajectory_frame_by_frame`. -/
def analyzeGo (table : ZoneTable) (tid : Nat) (f2w : Nat → Option (List String)) :
    Nat → List (ℚ × ℚ × ℚ) → List (Option String) → List TrackRow → List FrameResult
  | _, _, _, [] => []
  | idx, prevPts, prevZones, row :: rest =>
      let current_point := (row.xCenter, row.yCenter, row.heading)
      let current_zone := get_zone table (row.xCenter, row.yCenter)
      let velocity := (row.xVelocity, row.yVelocity)
      let atags0 := calculate_action_tags table current_point prevPts current_zone prevZones
        velocity row.heading
      let atags1 := match f2w idx with
        | some wtags => atags0 ++ wtags
        | none => atags0
      let atags2 := tag_post_process (dedupFirst atags1)
      let stags := calculate_speed_tags velocity (row.xAcceleration, row.yAcceleration)
        row.lonVelocity row.latVelocity row.lonAcceleration row.latAcceleration
      ⟨tid, row.frame, atags2, stags⟩ ::
        analyzeGo table tid f2w (idx + 1) (trimHistory (prevPts ++ [current_point]))
          (trimHistory (prevZones ++ [current_zone])) rest

/-- `analyze_trajectory_frame_by_frame`: run the sliding-window matcher
once (see `analyzeWindowResults`), build the frame-to-window-tags map,
then tag every row; `none` when the matcher raises. -/
def analyze_trajectory_frame_by_frame (table : ZoneTable) (rows : List TrackRow)
    (tid : Nat) (target_tag : String) : Option (List FrameResult) :=
  match analyzeWindowResults table (rows.map (fun r => (r.xCenter, r.yCenter))) target_tag tid with
  | none => none
  | some wrs => some (analyzeGo table tid (frame_to_window_tags wrs) 0 [] [] rows)

/-- A movement-state tag: exactly the two mutually exclusive tags the
movement block emits. -/
def isMovementTag (t : String) : Bool := decide (t = "waiting") || decide (t = "moving")

/-- The synthetic 50-frame track of the end-to-end scenario: 20 frames
in RI_1, 10 frames in INT_1 with heading growing 10 degrees per frame,
20 frames in RIV_1, constant planar velocity (1, 0). -/
def trackC2Row (i : Nat) : TrackRow :=
  { frame := (i : Int)
  , xCenter := if i < 20 then 5 else if i < 30 then 25 else 45
  , yCenter := 5
  , heading := if i < 20 then 0 else if i < 30 then 10 * ((i : ℚ) - 19) else 100
  , xVelocity := 1
  , yVelocity := 0
  , xAcceleration := 0
  , yAcceleration := 0
  , lonVelocity := 0
  , latVelocity := 0
  , lonAcceleration := 0
  , latAcceleration := 0 }

/-- The 50 rows of the end-to-end scenario track. -/
def trackC2 : List TrackRow := (List.range 50).map trackC2Row

/-- A 12-point track: 6 frames in RI_1, then 6 frames in RV_1 (a pair
in no adjacency table). -/
def trajC1 : List Pt :=
  List.replicate 6 ((5 : ℚ), (5 : ℚ)) ++ List.replicate 6 ((85 : ℚ), (5 : ℚ))

-- ===== Theorems =====

/-- One ray-casting step never fails: whenever the three guards hold,
`y > min py1 py2` and `y ≤ max py1 py2` force `py1 ≠ py2`, so the value
read by `x ≤ xinters` was assigned in the same iteration. -/
theorem rayStep_ne_none (x y : ℚ) (s : RayState) (e : Pt × Pt) :
    rayStep x y s e ≠ none := by
  obtain ⟨⟨px1, py1⟩, ⟨px2, py2⟩⟩ := e
  simp only [rayStep]
  by_cases hg : y > min py1 py2 ∧ y ≤ max py1 py2 ∧ x ≤ max px1 px2
  · have hne : py1 ≠ py2 := by
      intro hpy
      subst hpy
      simp only [min_self, max_self] at hg
      exact absurd hg.2.1 (not_le.mpr hg.1)
    rw [if_pos hg, if_pos hne]
    by_cases hpx : px1 = px2
    · rw [if_pos hpx]
      exact Option.some_ne_none _
    · rw [if_neg hpx]
      by_cases hcmp : x ≤ (y - py1) * (px2 - px1) / (py2 - py1) + px1
      · show (if x ≤ _ then _ else _) ≠ none
        rw [if_pos hcmp]
        exact Option.some_ne_none _
      · show (if x ≤ _ then _ else _) ≠ none
        rw [if_neg hcmp]
        exact Option.some_ne_none _
  · rw [if_neg hg]
    exact Option.some_ne_none _

/-- The instrumented ray-casting fold succeeds from any state. -/
theorem foldlM_rayStep_isSome (x y : ℚ) (edges : List (Pt × Pt)) :
    ∀ s : RayState, (edges.foldlM (rayStep x y) s).isSome := by
  induction edges with
  | nil => intro s; rfl
  | cons e rest ih =>
      intro s
      obtain ⟨s1, hs1⟩ := Option.ne_none_iff_exists.mp (rayStep_ne_none x y s e)
      simp only [List.foldlM, ← hs1, Option.bind_some]
      exact ih s1

/-- Unfolding of `flzStep` when the run continues and reaches the
threshold. -/
theorem flzStep_cont_pos (mf : Nat) (s : FLState) (z : String)
    (hprev : s.prev = some z) (h : s.count + 1 ≥ mf) :
    flzStep mf s (some z) =
      ⟨if s.first = none then some z else s.first, some z, s.prev, s.count + 1⟩ := by
  simp only [flzStep]
  rw [if_pos ⟨hprev.symm, by simp⟩]
  simp only [flzCheck]
  rw [if_pos h]

/-- Unfolding of `flzStep` when the run continues below the threshold. -/
theorem flzStep_cont_neg (mf : Nat) (s : FLState) (z : String)
    (hprev : s.prev = some z) (h : ¬ s.count + 1 ≥ mf) :
    flzStep mf s (some z) = ⟨s.first, s.last, s.prev, s.count + 1⟩ := by
  simp only [flzStep]
  rw [if_pos ⟨hprev.symm, by simp⟩]
  simp only [flzCheck]
  rw [if_neg h]

/-- Unfolding of `flzStep` when the counter restarts and `min_frames ≤ 1`
(so the single fresh sample is immediately stable). -/
theorem flzStep_fresh_pos (mf : Nat) (s : FLState) (z : Option String)
    (hz : ¬ (z = s.prev ∧ z ≠ none)) (h : 1 ≥ mf) :
    flzStep mf s z = ⟨if s.first = none then z else s.first, z, z, 1⟩ := by
  simp only [flzStep]
  rw [if_neg hz]
  simp only [flzCheck]
  rw [if_pos h]

/-- Unfolding of `flzStep` when the counter restarts below the
threshold. -/
theorem flzStep_fresh_neg (mf : Nat) (s : FLState) (z : Option String)
    (hz : ¬ (z = s.prev ∧ z ≠ none)) (h : ¬ 1 ≥ mf) :
    flzStep mf s z = ⟨s.first, s.last, z, 1⟩ := by
  simp only [flzStep]
  rw [if_neg hz]
  simp only [flzCheck]
  rw [if_neg h]

/-- Effect of running the `find_first_last_zone` loop over `k` further
copies of the zone the current run is already in: the counter grows by
`k`, and once some intermediate count reaches the threshold the stable
zone is recorded. -/
theorem flzRun_replicate_cont (mf : Nat) (z : String) :
    ∀ (k : Nat) (s : FLState), s.prev = some z →
      (flzRun mf (List.replicate k (some z)) s).prev = some z ∧
      (flzRun mf (List.replicate k (some z)) s).count = s.count + k ∧
      (flzRun mf (List.replicate k (some z)) s).first =
        (if 1 ≤ k ∧ mf ≤ s.count + k ∧ s.first = none then some z else s.first) ∧
      (flzRun mf (List.replicate k (some z)) s).last =
        (if 1 ≤ k ∧ mf ≤ s.count + k then some z else s.last) := by
  intro k
  induction k with
  | zero =>
      intro s hprev
      refine ⟨hprev, rfl, ?_, ?_⟩
      · rw [if_neg (by omega)]
        rfl
      · rw [if_neg (by omega)]
        rfl
  | succ k ih =>
      intro s hprev
      have hrun : flzRun mf (List.replicate (k + 1) (some z)) s
          = flzRun mf (List.replicate k (some z)) (flzStep mf s (some z)) := by
        rw [List.replicate_succ]
        rfl
      by_cases htr : s.count + 1 ≥ mf
      · rw [hrun, flzStep_cont_pos mf s z hprev htr]
        obtain ⟨ihp, ihc, ihf, ihl⟩ :=
          ih ⟨if s.first = none then some z else s.first, some z, s.prev, s.count + 1⟩ hprev
        refine ⟨ihp, ?_, ?_, ?_⟩
        · rw [ihc]
          show s.count + 1 + k = s.count + (k + 1)
          omega
        · rw [ihf]
          rcases hsf : s.first with _ | w
          · simp only [hsf]
            simp
            omega
          · simp only [hsf]
            simp
        · rw [ihl]
          show (if 1 ≤ k ∧ mf ≤ s.count + 1 + k then some z else some z)
              = if 1 ≤ k + 1 ∧ mf ≤ s.count + (k + 1) then some z else s.last
          split_ifs with h1 h2 h3
          · rfl
          · exact absurd ⟨by omega, by omega⟩ h2
          · rfl
          · exact absurd ⟨by omega, by omega⟩ h3
      · rw [hrun, flzStep_cont_neg mf s z hprev htr]
        obtain ⟨ihp, ihc, ihf, ihl⟩ := ih ⟨s.first, s.last, s.prev, s.count + 1⟩ hprev
        refine ⟨ihp, ?_, ?_, ?_⟩
        · rw [ihc]
          show s.count + 1 + k = s.count + (k + 1)
          omega
        · rw [ihf]
          show (if 1 ≤ k ∧ mf ≤ s.count + 1 + k ∧ s.first = none then some z else s.first)
              = if 1 ≤ k + 1 ∧ mf ≤ s.count + (k + 1) ∧ s.first = none then some z else s.first
          split_ifs with h1 h2 h3
          · rfl
          · exact absurd ⟨by omega, by omega, h1.2.2⟩ h2
          · by_cases hk : 1 ≤ k
            · exact absurd ⟨hk, by omega, h3.2.2⟩ h1
            · exact absurd h3.2.1 (by omega)
          · rfl
        · rw [ihl]
          show (if 1 ≤ k ∧ mf ≤ s.count + 1 + k then some z else s.last)
              = if 1 ≤ k + 1 ∧ mf ≤ s.count + (k + 1) then some z else s.last
          split_ifs with h1 h2 h3
          · rfl
          · exact absurd ⟨by omega, by omega⟩ h2
          · by_cases hk : 1 ≤ k
            · exact absurd ⟨hk, by omega⟩ h1
            · exact absurd h3.2 (by omega)
          · rfl

/-- Effect of running the `find_first_last_zone` loop over `k ≥ 1`
copies of a zone different from the current `prev_zone`: the counter
restarts at 1 and reaches `k`; the zone becomes stable iff
`min_frames ≤ k`. -/
theorem flzRun_replicate_fresh (mf : Nat) (z : String) (k : Nat) (s : FLState)
    (hprev : s.prev ≠ some z) (hk : 1 ≤ k) :
    (flzRun mf (List.replicate k (some z)) s).prev = some z ∧
    (flzRun mf (List.replicate k (some z)) s).count = k ∧
    (flzRun mf (List.replicate k (some z)) s).first =
      (if mf ≤ k ∧ s.first = none then some z else s.first) ∧
    (flzRun mf (List.replicate k (some z)) s).last =
      (if mf ≤ k then some z else s.last) := by
  obtain ⟨m, rfl⟩ : ∃ m, k = m + 1 := ⟨k - 1, by omega⟩
  have hz : ¬ ((some z : Option String) = s.prev ∧ (some z : Option String) ≠ none) := by
    rintro ⟨h, _⟩
    exact hprev h.symm
  have hrun : flzRun mf (List.replicate (m + 1) (some z)) s
      = flzRun mf (List.replicate m (some z)) (flzStep mf s (some z)) := by
    rw [List.replicate_succ]
    rfl
  by_cases htr : 1 ≥ mf
  · rw [hrun, flzStep_fresh_pos mf s (some z) hz htr]
    obtain ⟨ihp, ihc, ihf, ihl⟩ :=
      flzRun_replicate_cont mf z m
        ⟨if s.first = none then some z else s.first, some z, some z, 1⟩ rfl
    refine ⟨ihp, ?_, ?_, ?_⟩
    · rw [ihc]
      show 1 + m = m + 1
      omega
    · rw [ihf]
      rcases hsf : s.first with _ | w
      · simp only [hsf]
        simp
        omega
      · simp only [hsf]
        simp
    · rw [ihl]
      show (if 1 ≤ m ∧ mf ≤ 1 + m then some z else some z) = if mf ≤ m + 1 then some z else s.last
      split_ifs with h1 h2 h3
      · rfl
      · exact absurd (by omega) h2
      · rfl
      · exact absurd (by omega) h3
  · rw [hrun, flzStep_fresh_neg mf s (some z) hz htr]
    obtain ⟨ihp, ihc, ihf, ihl⟩ := flzRun_replicate_cont mf z m ⟨s.first, s.last, some z, 1⟩ rfl
    refine ⟨ihp, ?_, ?_, ?_⟩
    · rw [ihc]
      show 1 + m = m + 1
      omega
    · rw [ihf]
      show (if 1 ≤ m ∧ mf ≤ 1 + m ∧ s.first = none then some z else s.first)
          = if mf ≤ m + 1 ∧ s.first = none then some z else s.first
      split_ifs with h1 h2 h3
      · rfl
      · exact absurd ⟨by omega, h1.2.2⟩ h2
      · exact absurd ⟨by omega, by omega, h3.2⟩ h1
      · rfl
    · rw [ihl]
      show (if 1 ≤ m ∧ mf ≤ 1 + m then some z else s.last) = if mf ≤ m + 1 then some z else s.last
      split_ifs with h1 h2 h3
      · rfl
      · exact absurd (by omega) h2
      · exact absurd ⟨by omega, by omega⟩ h1
      · rfl

/-- Invariant step for `find_first_last_zone`: if `first_zone` or
`last_zone` is set only when some non-none zone has already run for
`min_frames` consecutive lookups, and the counter is matched by a run of
`prev_zone` at the end of the processed prefix, then both facts persist
through one more loop iteration. -/
theorem flzStep_stable_inv (mf : Nat) (s : FLState) (z : Option String)
    (pre : List (Option String))
    (h1 : s.first ≠ none ∨ s.last ≠ none → ∃ w : String, List.replicate mf (some w) <:+: pre)
    (h2 : ∀ w : String, s.prev = some w → List.replicate s.count (some w) <:+ pre) :
    ((flzStep mf s z).first ≠ none ∨ (flzStep mf s z).last ≠ none →
      ∃ w : String, List.replicate mf (some w) <:+: pre ++ [z]) ∧
    (∀ w : String, (flzStep mf s z).prev = some w →
      List.replicate (flzStep mf s z).count (some w) <:+ pre ++ [z]) := by
  have hmono : (∃ w : String, List.replicate mf (some w) <:+: pre) →
      ∃ w : String, List.replicate mf (some w) <:+: pre ++ [z] := by
    rintro ⟨w, hw⟩
    exact ⟨w, hw.trans (List.prefix_append pre [z]).isInfix⟩
  by_cases hc : z = s.prev ∧ z ≠ none
  · obtain ⟨w0, hw0⟩ := Option.ne_none_iff_exists.mp hc.2
    subst hw0
    have hprev0 : s.prev = some w0 := hc.1.symm
    have hsuf : List.replicate (s.count + 1) (some w0) <:+ pre ++ [some w0] := by
      obtain ⟨t, ht⟩ := h2 w0 hprev0
      refine ⟨t, ?_⟩
      rw [List.replicate_succ', ← List.append_assoc, ht]
    by_cases htr : s.count + 1 ≥ mf
    · rw [flzStep_cont_pos mf s w0 hprev0 htr]
      constructor
      · intro _
        have hpref : List.replicate mf (some w0) <+: List.replicate (s.count + 1) (some w0) := by
          refine ⟨List.replicate (s.count + 1 - mf) (some w0), ?_⟩
          rw [← List.replicate_add]
          congr 1
          omega
        exact ⟨w0, hpref.isInfix.trans hsuf.isInfix⟩
      · intro w hw
        have hw2 : s.prev = some w := hw
        rw [hprev0] at hw2
        obtain rfl : w0 = w := Option.some.inj hw2
        exact hsuf
    · rw [flzStep_cont_neg mf s w0 hprev0 htr]
      constructor
      · intro hne
        exact hmono (h1 hne)
      · intro w hw
        have hw2 : s.prev = some w := hw
        rw [hprev0] at hw2
        obtain rfl : w0 = w := Option.some.inj hw2
        exact hsuf
  · by_cases htr : 1 ≥ mf
    · rw [flzStep_fresh_pos mf s z hc htr]
      constructor
      · intro hne
        rcases z with _ | w0
        · apply hmono
          apply h1
          rcases hne with hne | hne
          · left
            by_cases hsf : s.first = none
            · rw [if_pos hsf] at hne
              exact absurd rfl hne
            · exact hsf
          · exact absurd rfl hne
        · refine ⟨w0, ?_⟩
          have hpref : List.replicate mf (some w0) <+: List.replicate 1 (some w0) := by
            refine ⟨List.replicate (1 - mf) (some w0), ?_⟩
            rw [← List.replicate_add]
            congr 1
            omega
          have hsuf1 : List.replicate 1 (some w0) <:+ pre ++ [some w0] := ⟨pre, by simp⟩
          exact hpref.isInfix.trans hsuf1.isInfix
      · intro w hw
        have hzw : z = some w := hw
        subst hzw
        exact ⟨pre, by simp⟩
    · rw [flzStep_fresh_neg mf s z hc htr]
      constructor
      · intro hne
        exact hmono (h1 hne)
      · intro w hw
        have hzw : z = some w := hw
        subst hzw
        exact ⟨pre, by simp⟩

/-- Full-run invariant for `find_first_last_zone`: if the final state
has `first_zone` or `last_zone` set, some non-none zone ran for
`min_frames` consecutive lookups somewhere in the input. -/
theorem flzRun_stable_inv (mf : Nat) (zs : List (Option String)) :
    ∀ (pre : List (Option String)) (s : FLState),
      (s.first ≠ none ∨ s.last ≠ none → ∃ w : String, List.replicate mf (some w) <:+: pre) →
      (∀ w : String, s.prev = some w → List.replicate s.count (some w) <:+ pre) →
      ((flzRun mf zs s).first ≠ none ∨ (flzRun mf zs s).last ≠ none →
        ∃ w : String, List.replicate mf (some w) <:+: pre ++ zs) := by
  induction zs with
  | nil =>
      intro pre s h1 _ hne
      rw [List.append_nil]
      exact h1 hne
  | cons z zs ih =>
      intro pre s h1 h2 hne
      have hstep := flzStep_stable_inv mf s z pre h1 h2
      have hrw : flzRun mf (z :: zs) s = flzRun mf zs (flzStep mf s z) := rfl
      rw [hrw] at hne
      have hfin := ih (pre ++ [z]) (flzStep mf s z) hstep.1 hstep.2 hne
      rwa [List.append_assoc, List.singleton_append] at hfin

/-- C9: for every point and every polygon, the ray-casting loop never
reads `xinters` unassigned — whenever the guards hold, `py1 ≠ py2`, so
the branch reading an unassigned `xinters` is unreachable and
`is_point_in_polygon` is total: the instrumented run always succeeds
with the plain result. -/
theorem C9_ray_casting_total (p : Pt) (poly : ZPolygon) :
    is_point_in_polygon_checked p poly = some (is_point_in_polygon p poly) := by
  obtain ⟨s2, hs2⟩ :=
    Option.isSome_iff_exists.mp (foldlM_rayStep_isSome p.1 p.2 (polyEdges poly) ⟨false, none⟩)
  unfold is_point_in_polygon is_point_in_polygon_checked
  rw [hs2]
  rfl

/-- `find_first_last_zone` on a nonempty trajectory is the state of the
loop run over the pointwise zone lookups. -/
theorem find_first_last_zone_cons (table : ZoneTable) (p : Pt) (tl : List Pt) (mf : Nat) :
    find_first_last_zone table (p :: tl) mf =
      some ((flzRun mf ((p :: tl).map (get_zone table)) initFL).first,
            (flzRun mf ((p :: tl).map (get_zone table)) initFL).last) := rfl

/-- C5: the stable-zone tracker.  (a) On a trajectory whose zone lookups
are `N ≥ min_frames` copies of zone `A` followed by `M ≥ min_frames`
copies of zone `B`, `find_first_last_zone` returns `(A, B)`.  (b) On a
nonempty trajectory in which no zone label is held for `min_frames`
consecutive lookups, it returns `(none, none)`. -/
theorem C5_stable_zone_tracker (table : ZoneTable) (traj : List Pt) (mf N M : Nat)
    (A B : String) (hmf : 1 ≤ mf) :
    (mf ≤ N → mf ≤ M →
      traj.map (get_zone table) = List.replicate N (some A) ++ List.replicate M (some B) →
      find_first_last_zone table traj mf = some (some A, some B)) ∧
    (traj ≠ [] →
      (∀ w : String, ¬ List.replicate mf (some w) <:+: traj.map (get_zone table)) →
      find_first_last_zone table traj mf = some (none, none)) := by
  constructor
  · intro hN hM hmap
    have htne : traj ≠ [] := by
      intro h0
      subst h0
      have hlen := congrArg List.length hmap
      simp at hlen
      omega
    obtain ⟨p0, t2, rfl⟩ : ∃ p0 t2, traj = p0 :: t2 := by
      cases traj with
      | nil => exact absurd rfl htne
      | cons a l => exact ⟨a, l, rfl⟩
    rw [find_first_last_zone_cons, hmap]
    have happ : flzRun mf (List.replicate N (some A) ++ List.replicate M (some B)) initFL
        = flzRun mf (List.replicate M (some B)) (flzRun mf (List.replicate N (some A)) initFL) := by
      simp [flzRun, List.foldl_append]
    rw [happ]
    obtain ⟨hp1, hc1, hf1, hl1⟩ :=
      flzRun_replicate_fresh mf A N initFL (by simp [initFL]) (by omega)
    have hf1x : (flzRun mf (List.replicate N (some A)) initFL).first = some A := by
      rw [hf1, if_pos ⟨hN, rfl⟩]
    have hl1x : (flzRun mf (List.replicate N (some A)) initFL).last = some A := by
      rw [hl1, if_pos hN]
    by_cases hAB : (flzRun mf (List.replicate N (some A)) initFL).prev = some B
    · have hab : A = B := Option.some.inj (hp1.symm.trans hAB)
      subst hab
      obtain ⟨hp2, hc2, hf2, hl2⟩ :=
        flzRun_replicate_cont mf A M (flzRun mf (List.replicate N (some A)) initFL) hAB
      have hcond : ¬(1 ≤ M ∧ mf ≤ (flzRun mf (List.replicate N (some A)) initFL).count + M ∧
          (flzRun mf (List.replicate N (some A)) initFL).first = none) := by
        rintro ⟨-, -, hcon⟩
        rw [hf1x] at hcon
        exact Option.noConfusion hcon
      have hf2x : (flzRun mf (List.replicate M (some A))
          (flzRun mf (List.replicate N (some A)) initFL)).first = some A := by
        rw [hf2, if_neg hcond]
        exact hf1x
      have hl2x : (flzRun mf (List.replicate M (some A))
          (flzRun mf (List.replicate N (some A)) initFL)).last = some A := by
        rw [hl2, if_pos ⟨by omega, by omega⟩]
      rw [hf2x, hl2x]
    · obtain ⟨hp2, hc2, hf2, hl2⟩ :=
        flzRun_replicate_fresh mf B M (flzRun mf (List.replicate N (some A)) initFL) hAB
          (by omega)
      have hcond : ¬(mf ≤ M ∧ (flzRun mf (List.replicate N (some A)) initFL).first = none) := by
        rintro ⟨-, hcon⟩
        rw [hf1x] at hcon
        exact Option.noConfusion hcon
      have hf2x : (flzRun mf (List.replicate M (some B))
          (flzRun mf (List.replicate N (some A)) initFL)).first = some A := by
        rw [hf2, if_neg hcond]
        exact hf1x
      have hl2x : (flzRun mf (List.replicate M (some B))
          (flzRun mf (List.replicate N (some A)) initFL)).last = some B := by
        rw [hl2, if_pos hM]
      rw [hf2x, hl2x]
  · intro htne hnost
    obtain ⟨p0, t2, rfl⟩ : ∃ p0 t2, traj = p0 :: t2 := by
      cases traj with
      | nil => exact absurd rfl htne
      | cons a l => exact ⟨a, l, rfl⟩
    rw [find_first_last_zone_cons]
    have hinv := flzRun_stable_inv mf ((p0 :: t2).map (get_zone table)) [] initFL
      (by intro h; rcases h with h | h <;> exact absurd rfl h)
      (by intro w hw; simp [initFL] at hw)
    have hf : (flzRun mf ((p0 :: t2).map (get_zone table)) initFL).first = none := by
      by_contra hcon
      obtain ⟨w, hw⟩ := hinv (Or.inl hcon)
      rw [List.nil_append] at hw
      exact hnost w hw
    have hl : (flzRun mf ((p0 :: t2).map (get_zone table)) initFL).last = none := by
      by_contra hcon
      obtain ⟨w, hw⟩ := hinv (Or.inr hcon)
      rw [List.nil_append] at hw
      exact hnost w hw
    rw [hf, hl]

/-- Witness for C5: on the synthetic square zones, two lookups in RI_1
followed by two in INT_1 with `min_frames = 2` give `(RI_1, INT_1)`, and
an alternating sequence gives `(none, none)`. -/
theorem C5_witness :
    find_first_last_zone testTable
        [((5 : ℚ), (5 : ℚ)), ((5 : ℚ), (5 : ℚ)), ((25 : ℚ), (5 : ℚ)), ((25 : ℚ), (5 : ℚ))] 2
      = some (some "RI_1", some "INT_1") ∧
    find_first_last_zone testTable
        [((5 : ℚ), (5 : ℚ)), ((25 : ℚ), (5 : ℚ)), ((5 : ℚ), (5 : ℚ))] 2
      = some (none, none) := by
  constructor
  · exact (C5_stable_zone_tracker testTable _ 2 2 2 "RI_1" "INT_1" (by decide)).1
      (by decide) (by decide) (by decide)
  · refine (C5_stable_zone_tracker testTable _ 2 0 0 "RI_1" "RI_1" (by decide)).2
      (by decide) ?_
    intro w hw
    have hmap : ([((5 : ℚ), (5 : ℚ)), ((25 : ℚ), (5 : ℚ)), ((5 : ℚ), (5 : ℚ))].map
        (get_zone testTable)) = [some "RI_1", some "INT_1", some "RI_1"] := by decide
    rw [hmap] at hw
    have hmem : some w ∈ [some "RI_1", some "INT_1", some "RI_1"] :=
      hw.subset (by simp [List.mem_replicate])
    simp only [List.mem_cons, List.not_mem_nil, or_false, Option.some.injEq] at hmem
    rcases hmem with rfl | rfl | rfl <;> revert hw <;> decide

/-- The `find_first_last_zone` loop leaves `first_zone` and `last_zone`
untouched across any block of `none` lookups when `min_frames ≥ 2`. -/
theorem flzRun_none_preserves (mf : Nat) (hmf : 2 ≤ mf) (zs : List (Option String)) :
    ∀ s : FLState, (∀ z ∈ zs, z = none) →
      (flzRun mf zs s).first = s.first ∧ (flzRun mf zs s).last = s.last := by
  induction zs with
  | nil =>
      intro s _
      exact ⟨rfl, rfl⟩
  | cons z zs ih =>
      intro s hz
      have hz0 : z = none := hz z (by simp)
      subst hz0
      have hrw : flzRun mf (none :: zs) s = flzRun mf zs (flzStep mf s none) := rfl
      have hstep : flzStep mf s none = ⟨s.first, s.last, none, 1⟩ :=
        flzStep_fresh_neg mf s none (by rintro ⟨-, h⟩; exact h rfl) (by omega)
      rw [hrw, hstep]
      exact ih ⟨s.first, s.last, none, 1⟩ (fun w hw => hz w (List.mem_cons_of_mem none hw))

/-- One `find_first_last_zone` iteration preserves the invariant that an
unset `first_zone` forces an unset `last_zone`. -/
theorem flzStep_first_last (mf : Nat) (s : FLState) (z : Option String)
    (h : s.first = none → s.last = none) :
    (flzStep mf s z).first = none → (flzStep mf s z).last = none := by
  by_cases hc : z = s.prev ∧ z ≠ none
  · obtain ⟨w0, hw0⟩ := Option.ne_none_iff_exists.mp hc.2
    subst hw0
    have hprev0 : s.prev = some w0 := hc.1.symm
    by_cases htr : s.count + 1 ≥ mf
    · rw [flzStep_cont_pos mf s w0 hprev0 htr]
      intro hf
      exfalso
      by_cases hsf : s.first = none
      · rw [if_pos hsf] at hf
        exact Option.noConfusion hf
      · rw [if_neg hsf] at hf
        exact hsf hf
    · rw [flzStep_cont_neg mf s w0 hprev0 htr]
      exact h
  · by_cases htr : 1 ≥ mf
    · rw [flzStep_fresh_pos mf s z hc htr]
      intro hf
      by_cases hsf : s.first = none
      · rwa [if_pos hsf] at hf
      · rw [if_neg hsf] at hf
        exact absurd hf hsf
    · rw [flzStep_fresh_neg mf s z hc htr]
      exact h

/-- Whole-run version of `flzStep_first_last`. -/
theorem flzRun_first_last (mf : Nat) (zs : List (Option String)) :
    ∀ s : FLState, (s.first = none → s.last = none) →
      ((flzRun mf zs s).first = none → (flzRun mf zs s).last = none) := by
  induction zs with
  | nil =>
      intro s h
      exact h
  | cons z zs ih =>
      intro s h
      have hrw : flzRun mf (z :: zs) s = flzRun mf zs (flzStep mf s z) := rfl
      rw [hrw]
      exact ih (flzStep mf s z) (flzStep_first_last mf s z h)

/-- C6, counterexample: with `min_frames = 1` a `none` zone lookup does
become "stable" (its restarted count 1 meets the threshold) and
overwrites a previously established non-none `last_zone` with `none`:
after one point in RI_1 the tracker holds `(RI_1, RI_1)`, and appending
one point outside every zone yields `(RI_1, none)`. -/
theorem C6_counterexample :
    get_zone testTable ((5 : ℚ), (5 : ℚ)) = some "RI_1" ∧
    get_zone testTable ((1000 : ℚ), (1000 : ℚ)) = none ∧
    find_first_last_zone testTable [((5 : ℚ), (5 : ℚ))] 1 = some (some "RI_1", some "RI_1") ∧
    find_first_last_zone testTable [((5 : ℚ), (5 : ℚ)), ((1000 : ℚ), (1000 : ℚ))] 1
      = some (some "RI_1", none) := by decide

/-- C6, amended: for `min_frames ≥ 2`, runs of `none` zone lookups never
change `first_zone` or `last_zone` (a single step with a `none` lookup
preserves both, and appending any block of points whose lookups are all
`none` leaves the result unchanged); for every `min_frames`, a returned
`first_zone` of `none` forces a returned `last_zone` of `none`.  (With
`min_frames = 1` a `none` run does reset `last_zone` to `none`, as the
counterexample shows; it still never makes `first_zone` or `last_zone`
non-none.) -/
theorem C6_none_runs_amended :
    (∀ (mf : Nat) (s : FLState), 2 ≤ mf →
      (flzStep mf s none).first = s.first ∧ (flzStep mf s none).last = s.last) ∧
    (∀ (table : ZoneTable) (traj extra : List Pt) (mf : Nat), 2 ≤ mf → traj ≠ [] →
      (∀ p ∈ extra, get_zone table p = none) →
      find_first_last_zone table (traj ++ extra) mf = find_first_last_zone table traj mf) ∧
    (∀ (table : ZoneTable) (traj : List Pt) (mf : Nat) (fz lz : Option String),
      find_first_last_zone table traj mf = some (fz, lz) → fz = none → lz = none) := by
  refine ⟨?_, ?_, ?_⟩
  · intro mf s hmf
    have hstep : flzStep mf s none = ⟨s.first, s.last, none, 1⟩ :=
      flzStep_fresh_neg mf s none (by rintro ⟨-, h⟩; exact h rfl) (by omega)
    rw [hstep]
    exact ⟨rfl, rfl⟩
  · intro table traj extra mf hmf htne hex
    obtain ⟨p0, t2, rfl⟩ : ∃ p0 t2, traj = p0 :: t2 := by
      cases traj with
      | nil => exact absurd rfl htne
      | cons a l => exact ⟨a, l, rfl⟩
    have hrw : (p0 :: t2) ++ extra = p0 :: (t2 ++ extra) := rfl
    rw [hrw, find_first_last_zone_cons, find_first_last_zone_cons]
    have hsplit : (p0 :: (t2 ++ extra)).map (get_zone table)
        = (p0 :: t2).map (get_zone table) ++ extra.map (get_zone table) := by
      simp
    rw [hsplit]
    have happ : flzRun mf ((p0 :: t2).map (get_zone table) ++ extra.map (get_zone table)) initFL
        = flzRun mf (extra.map (get_zone table))
            (flzRun mf ((p0 :: t2).map (get_zone table)) initFL) := by
      simp [flzRun, List.foldl_append]
    rw [happ]
    obtain ⟨hf, hl⟩ := flzRun_none_preserves mf hmf (extra.map (get_zone table))
      (flzRun mf ((p0 :: t2).map (get_zone table)) initFL)
      (by
        intro z hz
        simp only [List.mem_map] at hz
        obtain ⟨p, hp, rfl⟩ := hz
        exact hex p hp)
    rw [hf, hl]
  · intro table traj mf fz lz hfind hfz
    cases traj with
    | nil => exact Option.noConfusion hfind
    | cons p0 t2 =>
        rw [find_first_last_zone_cons] at hfind
        have hpair := Option.some.inj hfind
        have hf : (flzRun mf ((p0 :: t2).map (get_zone table)) initFL).first = fz :=
          congrArg Prod.fst hpair
        have hl : (flzRun mf ((p0 :: t2).map (get_zone table)) initFL).last = lz :=
          congrArg Prod.snd hpair
        subst hfz
        rw [← hl]
        exact flzRun_first_last mf ((p0 :: t2).map (get_zone table)) initFL
          (fun _ => rfl) hf

/-- Witness for C6 (amended): with `min_frames = 2`, appending an
out-of-zone point to a two-point RI_1 trajectory leaves the tracker
result unchanged. -/
theorem C6_witness :
    find_first_last_zone testTable
        [((5 : ℚ), (5 : ℚ)), ((5 : ℚ), (5 : ℚ)), ((1000 : ℚ), (1000 : ℚ))] 2
      = find_first_last_zone testTable [((5 : ℚ), (5 : ℚ)), ((5 : ℚ), (5 : ℚ))] 2 :=
  C6_none_runs_amended.2.1 testTable [((5 : ℚ), (5 : ℚ)), ((5 : ℚ), (5 : ℚ))]
    [((1000 : ℚ), (1000 : ℚ))] 2 (by decide) (by decide) (by decide)

/-- `pySplit` never returns the empty list. -/
theorem pySplit_ne_nil (c : Char) (l : List Char) : pySplit c l ≠ [] := by
  cases l with
  | nil => simp [pySplit]
  | cons x xs =>
      by_cases hx : x = c
      · simp [pySplit, hx]
      · simp only [pySplit, if_neg hx]
        cases hm : pySplit c xs with
        | nil => simp
        | cons h t => simp

/-- Splitting a list that starts with a separator-free prefix followed
by a separator peels off that prefix as the first part. -/
theorem pySplit_prefix (c : Char) (pre : List Char) (hpre : c ∉ pre) (rest : List Char) :
    pySplit c (pre ++ c :: rest) = pre :: pySplit c rest := by
  induction pre with
  | nil => simp [pySplit]
  | cons x xs ih =>
      have hx : x ≠ c := fun h => hpre (h ▸ List.mem_cons_self x xs)
      have hxs : c ∉ xs := fun h => hpre (List.mem_cons_of_mem x h)
      rw [List.cons_append]
      simp only [pySplit, if_neg hx, ih hxs]

/-- C4: the turn classifier used by the sliding-window matcher maps
(RI, RII) to a right turn, (RI, RIV) to a left turn, (RI, RIII) to
straight and (RI, RV) to no rule, for any lane-index suffixes after the
underscore, and in particular on the concrete zone names of the spec
examples. -/
theorem C4_turn_classifier :
    (∀ s t : List Char,
      classifyTurn (String.mk ('R' :: 'I' :: '_' :: s)) (String.mk ('R' :: 'I' :: 'I' :: '_' :: t))
        = some (some "右轉") ∧
      classifyTurn (String.mk ('R' :: 'I' :: '_' :: s))
          (String.mk ('R' :: 'I' :: 'V' :: '_' :: t)) = some (some "左轉") ∧
      classifyTurn (String.mk ('R' :: 'I' :: '_' :: s))
          (String.mk ('R' :: 'I' :: 'I' :: 'I' :: '_' :: t)) = some (some "直行") ∧
      classifyTurn (String.mk ('R' :: 'I' :: '_' :: s))
          (String.mk ('R' :: 'V' :: '_' :: t)) = some none) ∧
    classifyTurn "RI_1" "RII_1" = some (some "右轉") ∧
    classifyTurn "RI_1" "RIV_1" = some (some "左轉") ∧
    classifyTurn "RI_1" "RIII_1" = some (some "直行") ∧
    classifyTurn "RI_1" "RV_1" = some none := by
  constructor
  · intro s t
    have e1 : pySplit '_' (String.mk ('R' :: 'I' :: '_' :: s)).data
        = ['R', 'I'] :: pySplit '_' s := pySplit_prefix '_' ['R', 'I'] (by decide) s
    have e2 : pySplit '_' (String.mk ('R' :: 'I' :: 'I' :: '_' :: t)).data
        = ['R', 'I', 'I'] :: pySplit '_' t := pySplit_prefix '_' ['R', 'I', 'I'] (by decide) t
    have e3 : pySplit '_' (String.mk ('R' :: 'I' :: 'V' :: '_' :: t)).data
        = ['R', 'I', 'V'] :: pySplit '_' t := pySplit_prefix '_' ['R', 'I', 'V'] (by decide) t
    have e4 : pySplit '_' (String.mk ('R' :: 'I' :: 'I' :: 'I' :: '_' :: t)).data
        = ['R', 'I', 'I', 'I'] :: pySplit '_' t :=
      pySplit_prefix '_' ['R', 'I', 'I', 'I'] (by decide) t
    have e5 : pySplit '_' (String.mk ('R' :: 'V' :: '_' :: t)).data
        = ['R', 'V'] :: pySplit '_' t := pySplit_prefix '_' ['R', 'V'] (by decide) t
    obtain ⟨hs, ts, hs1⟩ := List.exists_cons_of_ne_nil (pySplit_ne_nil '_' s)
    obtain ⟨ht, tt, ht1⟩ := List.exists_cons_of_ne_nil (pySplit_ne_nil '_' t)
    refine ⟨?_, ?_, ?_, ?_⟩ <;>
      simp [classifyTurn, check_turn, laneToken, roadToken, e1, e2, e3, e4, e5, hs1, ht1,
        right_turn, left_turn, straight]
  · refine ⟨?_, ?_, ?_, ?_⟩ <;> decide

/-- `tag_post_process` is the conflict filter on every input (empty or
not). -/
theorem tag_post_process_eq_filter (l : List String) :
    tag_post_process l = l.filter (tppKeep l) := by
  by_cases h : l = []
  · subst h
    rfl
  · rw [tag_post_process, if_neg h]

/-- C3: the conflict resolver drops every directional turn tag (both
tag families) when the straight tag is present, drops both directional
turn tags of a family when that family has both left and right, keeps
every non-turn-family tag in first-seen order, returns the input
unchanged when no conflict rule fires, and on the spec examples maps
{turning_left, straight} to {straight} and {turning_left,
turning_right} to the empty output. -/
theorem C3_conflict_resolver :
    (∀ l : List String,
      ("直行" ∈ l → ∀ tag ∈ tag_post_process l,
        tag ∉ (["turning_left", "turning_right", "左轉", "右轉"] : List String)) ∧
      ("turning_left" ∈ l → "turning_right" ∈ l →
        "turning_left" ∉ tag_post_process l ∧ "turning_right" ∉ tag_post_process l) ∧
      ("左轉" ∈ l → "右轉" ∈ l →
        "左轉" ∉ tag_post_process l ∧ "右轉" ∉ tag_post_process l) ∧
      ((tag_post_process l).filter
          (fun t => !(decide (t ∈ (["turning_left", "turning_right", "左轉", "右轉"] : List String))))
        = l.filter
          (fun t => !(decide (t ∈ (["turning_left", "turning_right", "左轉", "右轉"] : List String))))) ∧
      ("直行" ∉ l → ¬("turning_left" ∈ l ∧ "turning_right" ∈ l) →
        ¬("左轉" ∈ l ∧ "右轉" ∈ l) → tag_post_process l = l)) ∧
    tag_post_process ["turning_left", "直行"] = ["直行"] ∧
    tag_post_process ["turning_left", "turning_right"] = [] := by
  refine ⟨?_, by decide, by decide⟩
  intro l
  refine ⟨?_, ?_, ?_, ?_, ?_⟩
  · intro hzh tag htag hfam
    rw [tag_post_process_eq_filter] at htag
    obtain ⟨hmem, hkeep⟩ := List.mem_filter.mp htag
    simp only [List.mem_cons, List.not_mem_nil, or_false] at hfam
    rcases hfam with rfl | rfl | rfl | rfl <;>
      simp [tppKeep, turning_tags, chinese_turn_tags, hzh] at hkeep
  · intro hL hR
    constructor <;> intro htag <;> rw [tag_post_process_eq_filter] at htag <;>
      obtain ⟨hmem, hkeep⟩ := List.mem_filter.mp htag <;>
      simp [tppKeep, turning_tags, chinese_turn_tags, hL, hR] at hkeep
  · intro hL hR
    constructor <;> intro htag <;> rw [tag_post_process_eq_filter] at htag <;>
      obtain ⟨hmem, hkeep⟩ := List.mem_filter.mp htag <;>
      simp [tppKeep, turning_tags, chinese_turn_tags, hL, hR] at hkeep
  · rw [tag_post_process_eq_filter, List.filter_filter]
    apply List.filter_congr
    intro t ht
    by_cases hf : t ∈ (["turning_left", "turning_right", "左轉", "右轉"] : List String)
    · simp [hf]
    · have h1 : t ∉ turning_tags := by
        intro hm
        apply hf
        simp only [turning_tags, List.mem_cons, List.not_mem_nil, or_false] at hm
        rcases hm with rfl | rfl <;> simp
      have h2 : t ∉ chinese_turn_tags := by
        intro hm
        apply hf
        simp only [chinese_turn_tags, List.mem_cons, List.not_mem_nil, or_false] at hm
        rcases hm with rfl | rfl <;> simp
      simp [tppKeep, hf, h1, h2]
  · intro hzh hboth hbothzh
    rw [tag_post_process_eq_filter]
    apply List.filter_eq_self.mpr
    intro t ht
    simp [tppKeep, hzh, hboth, hbothzh]

/-- Witness for C3: with both English turn directions present, both are
dropped. -/
theorem C3_witness :
    "turning_left" ∉ tag_post_process ["turning_left", "turning_right"] ∧
    "turning_right" ∉ tag_post_process ["turning_left", "turning_right"] :=
  (C3_conflict_resolver.1 ["turning_left", "turning_right"]).2.1 (by decide) (by decide)

/-- C7: `calculate_speed_tags` returns exactly one speed tag and one
acceleration tag; the speed tag classifies the planar speed
`sqrt(vx^2 + vy^2)` by the bands `< 0.5`, `< 2`, `< 8`, `≥ 8`, and the
acceleration tag classifies the longitudinal acceleration by `> 1`,
`< -1`, and the closed band between. -/
theorem C7_speed_tags (velocity acceleration : ℚ × ℚ)
    (lon_velocity lat_velocity lon_acceleration lat_acceleration : ℚ) :
    ∃ s a : String,
      calculate_speed_tags velocity acceleration lon_velocity lat_velocity
          lon_acceleration lat_acceleration = [s, a] ∧
      ((s = "stopped") ↔
        Real.sqrt ((velocity.1 : ℝ) ^ 2 + (velocity.2 : ℝ) ^ 2) < 0.5) ∧
      ((s = "slow") ↔
        0.5 ≤ Real.sqrt ((velocity.1 : ℝ) ^ 2 + (velocity.2 : ℝ) ^ 2) ∧
        Real.sqrt ((velocity.1 : ℝ) ^ 2 + (velocity.2 : ℝ) ^ 2) < 2) ∧
      ((s = "normal") ↔
        2 ≤ Real.sqrt ((velocity.1 : ℝ) ^ 2 + (velocity.2 : ℝ) ^ 2) ∧
        Real.sqrt ((velocity.1 : ℝ) ^ 2 + (velocity.2 : ℝ) ^ 2) < 8) ∧
      ((s = "fast") ↔
        8 ≤ Real.sqrt ((velocity.1 : ℝ) ^ 2 + (velocity.2 : ℝ) ^ 2)) ∧
      ((a = "accelerating") ↔ 1 < lon_acceleration) ∧
      ((a = "decelerating") ↔ lon_acceleration < -1) ∧
      ((a = "constant_speed") ↔ -1 ≤ lon_acceleration ∧ lon_acceleration ≤ 1) := by
  have hcast : (velocity.1 : ℝ) ^ 2 + (velocity.2 : ℝ) ^ 2
      = ((velocity.1 ^ 2 + velocity.2 ^ 2 : ℚ) : ℝ) := by
    push_cast
    ring
  have h05 : Real.sqrt ((velocity.1 : ℝ) ^ 2 + (velocity.2 : ℝ) ^ 2) < 0.5 ↔
      velocity.1 ^ 2 + velocity.2 ^ 2 < (1 / 2 : ℚ) ^ 2 := by
    rw [hcast, show (0.5 : ℝ) = ((1 / 2 : ℚ) : ℝ) by norm_num,
      Real.sqrt_lt' (by norm_num)]
    norm_cast
  have h2 : Real.sqrt ((velocity.1 : ℝ) ^ 2 + (velocity.2 : ℝ) ^ 2) < 2 ↔
      velocity.1 ^ 2 + velocity.2 ^ 2 < (2 : ℚ) ^ 2 := by
    rw [hcast, show (2 : ℝ) = ((2 : ℚ) : ℝ) by norm_num, Real.sqrt_lt' (by norm_num)]
    norm_cast
  have h8 : Real.sqrt ((velocity.1 : ℝ) ^ 2 + (velocity.2 : ℝ) ^ 2) < 8 ↔
      velocity.1 ^ 2 + velocity.2 ^ 2 < (8 : ℚ) ^ 2 := by
    rw [hcast, show (8 : ℝ) = ((8 : ℚ) : ℝ) by norm_num, Real.sqrt_lt' (by norm_num)]
    norm_cast
  have e05 : 0.5 ≤ Real.sqrt ((velocity.1 : ℝ) ^ 2 + (velocity.2 : ℝ) ^ 2) ↔
      ¬ velocity.1 ^ 2 + velocity.2 ^ 2 < (1 / 2 : ℚ) ^ 2 :=
    not_lt.symm.trans (not_congr h05)
  have e2 : 2 ≤ Real.sqrt ((velocity.1 : ℝ) ^ 2 + (velocity.2 : ℝ) ^ 2) ↔
      ¬ velocity.1 ^ 2 + velocity.2 ^ 2 < (2 : ℚ) ^ 2 :=
    not_lt.symm.trans (not_congr h2)
  have e8 : 8 ≤ Real.sqrt ((velocity.1 : ℝ) ^ 2 + (velocity.2 : ℝ) ^ 2) ↔
      ¬ velocity.1 ^ 2 + velocity.2 ^ 2 < (8 : ℚ) ^ 2 :=
    not_lt.symm.trans (not_congr h8)
  have hsp : (speedTagOf velocity.1 velocity.2 = "stopped" ↔
        velocity.1 ^ 2 + velocity.2 ^ 2 < (1 / 2 : ℚ) ^ 2) ∧
      (speedTagOf velocity.1 velocity.2 = "slow" ↔
        ¬ velocity.1 ^ 2 + velocity.2 ^ 2 < (1 / 2 : ℚ) ^ 2 ∧
        velocity.1 ^ 2 + velocity.2 ^ 2 < (2 : ℚ) ^ 2) ∧
      (speedTagOf velocity.1 velocity.2 = "normal" ↔
        ¬ velocity.1 ^ 2 + velocity.2 ^ 2 < (2 : ℚ) ^ 2 ∧
        velocity.1 ^ 2 + velocity.2 ^ 2 < (8 : ℚ) ^ 2) ∧
      (speedTagOf velocity.1 velocity.2 = "fast" ↔
        ¬ velocity.1 ^ 2 + velocity.2 ^ 2 < (8 : ℚ) ^ 2) := by
    unfold speedTagOf
    by_cases c1 : velocity.1 ^ 2 + velocity.2 ^ 2 < (1 / 2 : ℚ) ^ 2
    · have c2 : velocity.1 ^ 2 + velocity.2 ^ 2 < (2 : ℚ) ^ 2 := by
        linarith [(by norm_num : ((1 : ℚ) / 2) ^ 2 < (2 : ℚ) ^ 2)]
      have c3 : velocity.1 ^ 2 + velocity.2 ^ 2 < (8 : ℚ) ^ 2 := by
        linarith [(by norm_num : ((1 : ℚ) / 2) ^ 2 < (8 : ℚ) ^ 2)]
      rw [if_pos c1]
      exact ⟨iff_of_true rfl c1, iff_of_false (by decide) (fun h => h.1 c1),
        iff_of_false (by decide) (fun h => h.1 c2), iff_of_false (by decide) (fun h => h c3)⟩
    · rw [if_neg c1]
      by_cases c2 : velocity.1 ^ 2 + velocity.2 ^ 2 < (2 : ℚ) ^ 2
      · have c3 : velocity.1 ^ 2 + velocity.2 ^ 2 < (8 : ℚ) ^ 2 := by
          linarith [(by norm_num : ((2 : ℚ)) ^ 2 < (8 : ℚ) ^ 2)]
        rw [if_pos c2]
        exact ⟨iff_of_false (by decide) (fun h => c1 h), iff_of_true rfl ⟨c1, c2⟩,
          iff_of_false (by decide) (fun h => h.1 c2), iff_of_false (by decide) (fun h => h c3)⟩
      · rw [if_neg c2]
        by_cases c3 : velocity.1 ^ 2 + velocity.2 ^ 2 < (8 : ℚ) ^ 2
        · rw [if_pos c3]
          exact ⟨iff_of_false (by decide) (fun h => c1 h),
            iff_of_false (by decide) (fun h => c2 h.2), iff_of_true rfl ⟨c2, c3⟩,
            iff_of_false (by decide) (fun h => h c3)⟩
        · rw [if_neg c3]
          exact ⟨iff_of_false (by decide) (fun h => c1 h),
            iff_of_false (by decide) (fun h => c2 h.2),
            iff_of_false (by decide) (fun h => c3 h.2), iff_of_true rfl c3⟩
  have hac : (accelTagOf lon_acceleration = "accelerating" ↔ 1 < lon_acceleration) ∧
      (accelTagOf lon_acceleration = "decelerating" ↔ lon_acceleration < -1) ∧
      (accelTagOf lon_acceleration = "constant_speed" ↔
        -1 ≤ lon_acceleration ∧ lon_acceleration ≤ 1) := by
    unfold accelTagOf
    by_cases a1 : lon_acceleration > 1
    · refine ⟨by simp [a1], ?_, ?_⟩
      · exact iff_of_false (by simp [a1]) (by intro h; linarith)
      · exact iff_of_false (by simp [a1]) (by rintro ⟨h1, h2⟩; linarith)
    · by_cases a2 : lon_acceleration < -1
      · refine ⟨?_, by simp [a1, a2], ?_⟩
        · exact iff_of_false (by simp [a1, a2]) (by intro h; linarith)
        · exact iff_of_false (by simp [a1, a2]) (by rintro ⟨h1, h2⟩; linarith)
      · refine ⟨?_, ?_, ?_⟩
        · exact iff_of_false (by simp [a1, a2]) (fun h => a1 h)
        · exact iff_of_false (by simp [a1, a2]) (fun h => a2 h)
        · exact iff_of_true (by simp [a1, a2]) ⟨by linarith, by linarith⟩
  refine ⟨speedTagOf velocity.1 velocity.2, accelTagOf lon_acceleration, rfl,
    hsp.1.trans h05.symm, ?_, ?_, hsp.2.2.2.trans e8.symm, hac.1, hac.2.1, hac.2.2⟩
  · exact hsp.2.1.trans (and_congr e05 h2).symm
  · exact hsp.2.2.1.trans (and_congr e2 h8).symm

/-- Each branch of the squared point-to-segment distance is a sum of
squares. -/
theorem distSqPointSeg_nonneg (px py : ℚ) (e : Pt × Pt) : 0 ≤ distSqPointSeg px py e := by
  obtain ⟨⟨x1, y1⟩, ⟨x2, y2⟩⟩ := e
  simp only [distSqPointSeg]
  split_ifs
  · exact add_nonneg (mul_self_nonneg _) (mul_self_nonneg _)
  · exact add_nonneg (sq_nonneg _) (sq_nonneg _)
  · exact add_nonneg (sq_nonneg _) (sq_nonneg _)
  · exact add_nonneg (sq_nonneg _) (sq_nonneg _)

/-- A running minimum bounded by `d` stays bounded by `d`. -/
theorem foldl_minInf_le {α : Type} (f : α → Option ℚ) (l : List α) :
    ∀ (acc : Option ℚ) (d : ℚ), acc = some d →
      ∃ d2, l.foldl (fun a x => minInf a (f x)) acc = some d2 ∧ d2 ≤ d := by
  induction l with
  | nil =>
      intro acc d h
      exact ⟨d, by simpa using h, le_refl d⟩
  | cons x xs ih =>
      intro acc d h
      subst h
      cases hfx : f x with
      | none => exact ih (minInf (some d) (f x)) d (by rw [hfx]; rfl)
      | some y =>
          obtain ⟨d2, hf, hle⟩ := ih (minInf (some d) (f x)) (min d y) (by rw [hfx]; rfl)
          exact ⟨d2, hf, le_trans hle (min_le_left d y)⟩

/-- The running minimum is bounded by the value of any list element. -/
theorem foldl_minInf_le_elem {α : Type} (f : α → Option ℚ) (l : List α) :
    ∀ (acc : Option ℚ) (x0 : α), x0 ∈ l → ∀ d0, f x0 = some d0 →
      ∃ d, l.foldl (fun a x => minInf a (f x)) acc = some d ∧ d ≤ d0 := by
  induction l with
  | nil =>
      intro acc x0 h
      exact absurd h (List.not_mem_nil x0)
  | cons x xs ih =>
      intro acc x0 hmem d0 hf
      rcases List.mem_cons.mp hmem with rfl | hmem2
      · have hstep : ∃ d1, minInf acc (f x0) = some d1 ∧ d1 ≤ d0 := by
          cases acc with
          | none => exact ⟨d0, by rw [hf]; rfl, le_refl d0⟩
          | some a => exact ⟨min a d0, by rw [hf]; rfl, min_le_right a d0⟩
        obtain ⟨d1, h1, hle1⟩ := hstep
        obtain ⟨d2, h2, hle2⟩ := foldl_minInf_le f xs (minInf acc (f x0)) d1 h1
        exact ⟨d2, h2, le_trans hle2 hle1⟩
      · exact ih (minInf acc (f x)) x0 hmem2 d0 hf

/-- A predicate holding for the accumulator and for every element value
holds for the final running minimum. -/
theorem foldl_minInf_all {α : Type} (f : α → Option ℚ) (P : ℚ → Prop) (l : List α) :
    ∀ acc : Option ℚ, (∀ d, acc = some d → P d) →
      (∀ x ∈ l, ∀ d, f x = some d → P d) →
      ∀ d, l.foldl (fun a x => minInf a (f x)) acc = some d → P d := by
  induction l with
  | nil =>
      intro acc hacc _ d h
      exact hacc d (by simpa using h)
  | cons x xs ih =>
      intro acc hacc hall d h
      refine ih (minInf acc (f x)) ?_ (fun y hy => hall y (List.mem_cons_of_mem x hy)) d h
      intro d1 h1
      cases hacc0 : acc with
      | none =>
          cases hfx : f x with
          | none =>
              rw [hacc0, hfx] at h1
              exact absurd h1 (by simp [minInf])
          | some y =>
              rw [hacc0, hfx] at h1
              have : y = d1 := by simpa [minInf] using h1
              exact this ▸ hall x (List.mem_cons_self x xs) y hfx
      | some a =>
          cases hfx : f x with
          | none =>
              rw [hacc0, hfx] at h1
              have : a = d1 := by simpa [minInf] using h1
              exact this ▸ hacc a hacc0
          | some y =>
              rw [hacc0, hfx] at h1
              have hmin : min a y = d1 := by simpa [minInf] using h1
              rcases min_choice a y with hc | hc
              · exact (hmin ▸ hc) ▸ hacc a hacc0
              · exact (hmin ▸ hc) ▸ hall x (List.mem_cons_self x xs) y hfx

/-- A point inside the polygon has per-polygon squared distance 0. -/
theorem minPolyDistSq_inside (p : Pt) (poly : ZPolygon)
    (h : is_point_in_polygon p poly = true) : minPolyDistSq p poly = some 0 := by
  simp [minPolyDistSq, h]

/-- The per-polygon squared distance is nonnegative. -/
theorem minPolyDistSq_nonneg (p : Pt) (poly : ZPolygon) :
    ∀ d, minPolyDistSq p poly = some d → 0 ≤ d := by
  intro d h
  rw [minPolyDistSq] at h
  split_ifs at h with hin
  · cases h
    exact le_refl 0
  · exact foldl_minInf_all (fun e => some (distSqPointSeg p.1 p.2 e)) (fun d => 0 ≤ d)
      (polyEdges poly) none (by intro d1 h1; cases h1)
      (by
        intro e he d1 h1
        cases h1
        exact distSqPointSeg_nonneg p.1 p.2 e)
      d h

/-- If the point is outside the polygon and every edge is farther than
`c` (in squared distance), the per-polygon squared distance exceeds
`c`. -/
theorem minPolyDistSq_gt (p : Pt) (poly : ZPolygon) (c : ℚ)
    (hin : is_point_in_polygon p poly = false)
    (hall : ∀ e ∈ polyEdges poly, c < distSqPointSeg p.1 p.2 e) :
    ∀ d, minPolyDistSq p poly = some d → c < d := by
  intro d h
  rw [minPolyDistSq, if_neg (by rw [hin]; exact Bool.false_ne_true)] at h
  exact foldl_minInf_all (fun e => some (distSqPointSeg p.1 p.2 e)) (fun d => c < d)
    (polyEdges poly) none (by intro d1 h1; cases h1)
    (by
      intro e he d1 h1
      cases h1
      exact hall e he)
    d h

/-- C8: for `max_distance ≥ 0`, `get_distance_to_intersection` returns
0 for a point inside some polygon of a zone whose name starts with
INT_, and returns `none` when the point is outside all intersection
polygons and every intersection edge is farther than `max_distance`
(stated on squared distances, as the embedding computes them). -/
theorem C8_distance_to_intersection (table : ZoneTable) (p : Pt) (max_distance : ℚ)
    (hmd : 0 ≤ max_distance) :
    (∀ zname polys poly0, (zname, polys) ∈ table →
      "INT_".data.isPrefixOf zname.data = true → poly0 ∈ polys →
      is_point_in_polygon p poly0 = true →
      get_distance_to_intersection table p max_distance = some 0) ∧
    ((∀ zname polys, (zname, polys) ∈ table →
        "INT_".data.isPrefixOf zname.data = true →
        ∀ poly ∈ polys, is_point_in_polygon p poly = false ∧
          ∀ e ∈ polyEdges poly, max_distance ^ 2 < distSqPointSeg p.1 p.2 e) →
      get_distance_to_intersection table p max_distance = none) := by
  constructor
  · intro zname polys poly0 htab hpre hpoly hin
    have hmem : poly0 ∈ intPolysOf table := by
      rw [intPolysOf, List.mem_flatten]
      refine ⟨polys, ?_, hpoly⟩
      exact List.mem_map.mpr ⟨(zname, polys), List.mem_filter.mpr ⟨htab, hpre⟩, rfl⟩
    obtain ⟨d, hd, hle⟩ := foldl_minInf_le_elem (minPolyDistSq p) (intPolysOf table)
      none poly0 hmem 0 (minPolyDistSq_inside p poly0 hin)
    have h0 : 0 ≤ d := foldl_minInf_all (minPolyDistSq p) (fun d => 0 ≤ d)
      (intPolysOf table) none (by intro d1 h1; cases h1)
      (fun poly _ => minPolyDistSq_nonneg p poly) d hd
    have hd0 : d = 0 := le_antisymm hle h0
    subst hd0
    rw [get_distance_to_intersection, hd]
    show (if (0 : ℚ) ≤ max_distance ^ 2 then some (0 : ℚ) else none) = some 0
    rw [if_pos (by positivity)]
  · intro hall
    rw [get_distance_to_intersection]
    cases hmin : (intPolysOf table).foldl (fun acc poly => minInf acc (minPolyDistSq p poly))
        none with
    | none => rfl
    | some d =>
        have hgt : max_distance ^ 2 < d := by
          refine foldl_minInf_all (minPolyDistSq p) (fun d => max_distance ^ 2 < d)
            (intPolysOf table) none (by intro d1 h1; cases h1) ?_ d hmin
          intro poly hmem d1 h1
          rw [intPolysOf, List.mem_flatten] at hmem
          obtain ⟨ps, hps, hpoly⟩ := hmem
          obtain ⟨⟨zn, ps2⟩, hfil, rfl⟩ := List.mem_map.mp hps
          obtain ⟨htab, hpre⟩ := List.mem_filter.mp hfil
          obtain ⟨hnotin, hedges⟩ := hall zn ps2 htab hpre poly hpoly
          exact minPolyDistSq_gt p poly (max_distance ^ 2) hnotin hedges d1 h1
        show (if d ≤ max_distance ^ 2 then some d else none) = none
        rw [if_neg (not_le.mpr hgt)]

/-- Witness for C8: on the synthetic table, the point (25, 5) lies
inside the INT_1 square and gets distance 0; the point (200, 5) is more
than 5 units from every intersection edge and gets `none`. -/
theorem C8_witness :
    get_distance_to_intersection testTable ((25 : ℚ), (5 : ℚ)) 5 = some 0 ∧
    get_distance_to_intersection testTable ((200 : ℚ), (5 : ℚ)) 5 = none := by
  constructor
  · exact (C8_distance_to_intersection testTable ((25 : ℚ), (5 : ℚ)) 5 (by norm_num)).1
      "INT_1" [sqINT] sqINT (by decide) (by decide) (by decide) (by decide)
  · refine (C8_distance_to_intersection testTable ((200 : ℚ), (5 : ℚ)) 5 (by norm_num)).2 ?_
    intro zname polys htab
    simp only [testTable, List.mem_cons, List.not_mem_nil, or_false, Prod.mk.injEq] at htab
    rcases htab with ⟨rfl, rfl⟩ | ⟨rfl, rfl⟩ | ⟨rfl, rfl⟩ | ⟨rfl, rfl⟩ | ⟨rfl, rfl⟩ <;>
      intro hpre <;> revert hpre <;> decide

/-- A list containing the separator splits into at least two parts. -/
theorem pySplit_length_ge_two (c : Char) (l : List Char) (h : c ∈ l) :
    2 ≤ (pySplit c l).length := by
  induction l with
  | nil => cases h
  | cons x xs ih =>
      by_cases hx : x = c
      · have h1 : 1 ≤ (pySplit c xs).length :=
          List.length_pos.mpr (pySplit_ne_nil c xs)
        simp only [pySplit, if_pos hx, List.length_cons]
        omega
      · have hxs : c ∈ xs := by
          rcases List.mem_cons.mp h with h1 | h1
          · exact absurd h1.symm hx
          · exact h1
        simp only [pySplit, if_neg hx]
        cases hm : pySplit c xs with
        | nil => exact absurd hm (pySplit_ne_nil c xs)
        | cons hh tt =>
            have h2 := ih hxs
            rw [hm] at h2
            simpa using h2

/-- A zone name containing an underscore has a lane token. -/
theorem laneToken_isSome (z : String) (h : '_' ∈ z.data) :
    ∃ lt, laneToken z = some lt := by
  rw [laneToken]
  have h2 := pySplit_length_ge_two '_' z.data h
  cases hm : pySplit '_' z.data with
  | nil => exact absurd hm (pySplit_ne_nil '_' z.data)
  | cons a rest =>
      cases rest with
      | nil =>
          rw [hm] at h2
          simp at h2
      | cons b rest2 => exact ⟨b, rfl⟩

/-- `check_turn` succeeds on zone names that contain an underscore. -/
theorem check_turn_isSome (z1 z2 tagq : String) (h1 : '_' ∈ z1.data) (h2 : '_' ∈ z2.data) :
    ∃ b, check_turn z1 z2 tagq = some b := by
  obtain ⟨l1, hl1⟩ := laneToken_isSome z1 h1
  obtain ⟨l2, hl2⟩ := laneToken_isSome z2 h2
  rw [check_turn, hl1, hl2]
  split_ifs <;> exact ⟨_, rfl⟩

/-- The classifier chain succeeds on zone names that contain an
underscore. -/
theorem classifyTurn_isSome (z1 z2 : String) (h1 : '_' ∈ z1.data) (h2 : '_' ∈ z2.data) :
    ∃ c, classifyTurn z1 z2 = some c := by
  obtain ⟨b1, hb1⟩ := check_turn_isSome z1 z2 "右轉" h1 h2
  obtain ⟨b2, hb2⟩ := check_turn_isSome z1 z2 "左轉" h1 h2
  obtain ⟨b3, hb3⟩ := check_turn_isSome z1 z2 "直行" h1 h2
  rw [classifyTurn, hb1]
  cases b1 with
  | true => exact ⟨_, rfl⟩
  | false =>
      rw [hb2]
      cases b2 with
      | true => exact ⟨_, rfl⟩
      | false =>
          rw [hb3]
          cases b3 with
          | true => exact ⟨_, rfl⟩
          | false => exact ⟨_, rfl⟩

/-- A successful zone lookup returns a name present in the table. -/
theorem get_zone_mem (table : ZoneTable) (p : Pt) (z : String)
    (h : get_zone table p = some z) : ∃ polys, (z, polys) ∈ table := by
  rw [get_zone] at h
  cases hf : table.find? (fun zp => zp.2.any (fun poly => is_point_in_polygon p poly)) with
  | none => rw [hf] at h; cases h
  | some zp =>
      rw [hf] at h
      have hz : zp.1 = z := by simpa using h
      exact ⟨zp.2, hz ▸ List.mem_of_find?_eq_some hf⟩

/-- Each field of the `find_first_last_zone` state after one step is
either the old field or the zone just looked up. -/
theorem flzStep_field_cases (mf : Nat) (s : FLState) (z : Option String) :
    ((flzStep mf s z).first = s.first ∨ (flzStep mf s z).first = z) ∧
    ((flzStep mf s z).last = s.last ∨ (flzStep mf s z).last = z) ∧
    ((flzStep mf s z).prev = s.prev ∨ (flzStep mf s z).prev = z) := by
  by_cases hc : z = s.prev ∧ z ≠ none
  · obtain ⟨w0, hw0⟩ := Option.ne_none_iff_exists.mp hc.2
    subst hw0
    by_cases htr : s.count + 1 ≥ mf
    · rw [flzStep_cont_pos mf s w0 hc.1.symm htr]
      refine ⟨?_, Or.inr rfl, Or.inl rfl⟩
      by_cases hf : s.first = none
      · exact Or.inr (by simp [hf])
      · exact Or.inl (by simp [hf])
    · rw [flzStep_cont_neg mf s w0 hc.1.symm htr]
      exact ⟨Or.inl rfl, Or.inl rfl, Or.inl rfl⟩
  · by_cases htr : 1 ≥ mf
    · rw [flzStep_fresh_pos mf s z hc htr]
      refine ⟨?_, Or.inr rfl, Or.inr rfl⟩
      by_cases hf : s.first = none
      · exact Or.inr (by simp [hf])
      · exact Or.inl (by simp [hf])
    · rw [flzStep_fresh_neg mf s z hc htr]
      exact ⟨Or.inl rfl, Or.inl rfl, Or.inr rfl⟩

/-- Any property of optional zone names holding for all lookups and the
initial state fields holds for the final `first` and `last`. -/
theorem flzRun_fields_prop (mf : Nat) (Q : Option String → Prop) (zs : List (Option String))
    (hzs : ∀ z ∈ zs, Q z) :
    ∀ s : FLState, Q s.first → Q s.last → Q s.prev →
      Q (flzRun mf zs s).first ∧ Q (flzRun mf zs s).last ∧ Q (flzRun mf zs s).prev := by
  induction zs with
  | nil =>
      intro s h1 h2 h3
      exact ⟨h1, h2, h3⟩
  | cons z zs ih =>
      intro s h1 h2 h3
      have hz : Q z := hzs z (List.mem_cons_self z zs)
      have hrw : flzRun mf (z :: zs) s = flzRun mf zs (flzStep mf s z) := rfl
      rw [hrw]
      obtain ⟨c1, c2, c3⟩ := flzStep_field_cases mf s z
      refine ih (fun w hw => hzs w (List.mem_cons_of_mem z hw)) (flzStep mf s z) ?_ ?_ ?_
      · rcases c1 with h | h <;> rw [h] <;> assumption
      · rcases c2 with h | h <;> rw [h] <;> assumption
      · rcases c3 with h | h <;> rw [h] <;> assumption

/-- Every window start produced by the stride is below the stop bound. -/
theorem mem_pyRange0_lt (stop step s : Nat) (h : s ∈ pyRange0 stop step) : s < stop := by
  obtain ⟨i, hi, rfl⟩ := List.mem_map.mp h
  have hiq : i < (stop + step - 1) / step := List.mem_range.mp hi
  have h2 : (i + 1) * step ≤ ((stop + step - 1) / step) * step :=
    Nat.mul_le_mul_right step hiq
  have h3 : ((stop + step - 1) / step) * step ≤ stop + step - 1 := Nat.div_mul_le_self _ _
  have h4 : i * step + step = (i + 1) * step := by ring
  by_cases hstep : 1 ≤ step
  · omega
  · have : step = 0 := by omega
    subst this
    simp at h2 ⊢
    omega

/-- The window starts are pairwise distinct for a positive stride. -/
theorem pyRange0_nodup (stop step : Nat) (hstep : 1 ≤ step) : (pyRange0 stop step).Nodup :=
  (List.nodup_range _).map
    (fun a b h => Nat.eq_of_mul_eq_mul_right (by omega) h)

/-- Behavior of one window of `trajectory_tag_match` when the window
fits in the trajectory and every table zone name has an underscore: a
skipped window (both stable zones truthy, no table matches) produces no
verdict, every other window produces exactly one verdict covering
frames `start .. start + window_size - 1`. -/
theorem windowVerdict_spec (table : ZoneTable) (tag : String) (tid ws mf : Nat)
    (traj : List Pt) (start : Nat) (hws : 1 ≤ ws) (hstart : start + ws ≤ traj.length)
    (hnames : ∀ zp ∈ table, '_' ∈ (zp : String × List ZPolygon).1.data) :
    (windowSkipped table traj ws mf start = true →
      windowVerdict table tag tid ws mf traj start = some none) ∧
    (windowSkipped table traj ws mf start = false →
      ∃ w, windowVerdict table tag tid ws mf traj start = some (some w) ∧
        w.start_frame = start ∧ w.end_frame = start + ws - 1) := by
  have hlen : ((traj.drop start).take ws).length = ws := by
    rw [List.length_take, List.length_drop]
    omega
  obtain ⟨q, qs, hwin⟩ : ∃ q qs, (traj.drop start).take ws = q :: qs := by
    cases hw : (traj.drop start).take ws with
    | nil =>
        rw [hw] at hlen
        simp at hlen
        omega
    | cons a l => exact ⟨a, l, rfl⟩
  have hfind : find_first_last_zone table ((traj.drop start).take ws) mf
      = some ((flzRun mf ((q :: qs).map (get_zone table)) initFL).first,
              (flzRun mf ((q :: qs).map (get_zone table)) initFL).last) := by
    rw [hwin, find_first_last_zone_cons]
  have hQall : ∀ z ∈ ((q :: qs).map (get_zone table)), ∀ w, z = some w → '_' ∈ w.data := by
    intro z hz w hw
    obtain ⟨pnt, hp, rfl⟩ := List.mem_map.mp hz
    obtain ⟨polys, hmem⟩ := get_zone_mem table pnt w hw
    exact hnames (w, polys) hmem
  obtain ⟨hQf, hQl, hQp⟩ := flzRun_fields_prop mf (fun o => ∀ w, o = some w → '_' ∈ w.data)
    ((q :: qs).map (get_zone table)) hQall initFL
    (by intro w hw; cases hw) (by intro w hw; cases hw) (by intro w hw; cases hw)
  have master : (windowSkipped table traj ws mf start = true ∧
      windowVerdict table tag tid ws mf traj start = some none) ∨
      (windowSkipped table traj ws mf start = false ∧
        ∃ w, windowVerdict table tag tid ws mf traj start = some (some w) ∧
          w.start_frame = start ∧ w.end_frame = start + ws - 1) := by
    cases hFZ : (flzRun mf ((q :: qs).map (get_zone table)) initFL).first with
    | none =>
        cases hLZ : (flzRun mf ((q :: qs).map (get_zone table)) initFL).last with
        | none =>
            right
            refine ⟨?_, ⟨tid, start, start + ws - 1, none, none, none, false, tag⟩, ?_, rfl, rfl⟩
            · rw [windowSkipped, hfind, hFZ, hLZ]
            · rw [windowVerdict, hfind, hFZ, hLZ]
              rfl
        | some lz =>
            right
            refine ⟨?_, ⟨tid, start, start + ws - 1, none, some lz, none, false, tag⟩, ?_, rfl, rfl⟩
            · rw [windowSkipped, hfind, hFZ, hLZ]
            · rw [windowVerdict, hfind, hFZ, hLZ]
              rfl
    | some sz =>
        have hsz : sz ≠ "" := by
          intro h0
          have := hQf sz hFZ
          rw [h0] at this
          cases this
        cases hLZ : (flzRun mf ((q :: qs).map (get_zone table)) initFL).last with
        | none =>
            right
            refine ⟨?_, ⟨tid, start, start + ws - 1, some sz, none, none, false, tag⟩, ?_, rfl, rfl⟩
            · rw [windowSkipped, hfind, hFZ, hLZ]
            · rw [windowVerdict, hfind, hFZ, hLZ]
              simp [pyTruthy]
        | some ez =>
            have hez : ez ≠ "" := by
              intro h0
              have := hQl ez hLZ
              rw [h0] at this
              cases this
            obtain ⟨c, hc⟩ := classifyTurn_isSome sz ez (hQf sz hFZ) (hQl ez hLZ)
            cases c with
            | none =>
                left
                constructor
                · rw [windowSkipped, hfind, hFZ, hLZ]
                  simp [pyTruthy, hsz, hez, hc]
                · rw [windowVerdict, hfind, hFZ, hLZ]
                  simp [pyTruthy, hsz, hez, hc]
            | some t =>
                right
                refine ⟨?_, ⟨tid, start, start + ws - 1, some sz, some ez, some t,
                  decide (tag = t), tag⟩, ?_, rfl, rfl⟩
                · rw [windowSkipped, hfind, hFZ, hLZ]
                  simp [pyTruthy, hsz, hez, hc]
                · rw [windowVerdict, hfind, hFZ, hLZ]
                  simp [pyTruthy, hsz, hez, hc]
  rcases master with ⟨h1, h2⟩ | ⟨h1, h2⟩
  · exact ⟨fun _ => h2, fun hfalse => absurd h1 (by rw [hfalse]; exact Bool.false_ne_true)⟩
  · exact ⟨fun htrue => absurd htrue (by rw [h1]; exact Bool.false_ne_true), fun _ => h2⟩

/-- The window loop records, for every start, exactly one verdict when
the window is not skipped and none when it is, and every recorded
verdict carries its start and the per-window property. -/
theorem ttmGo_spec (f : Nat → Option (Option WindowResult)) (P : WindowResult → Prop) :
    ∀ starts : List Nat, starts.Nodup →
      (∀ s ∈ starts, ∃ v, f s = some v ∧ ∀ w, v = some w → w.start_frame = s ∧ P w) →
      ∃ res, ttmGo f starts = some res ∧
        (∀ w ∈ res, w.start_frame ∈ starts ∧ P w) ∧
        (∀ s ∈ starts, ∀ v, f s = some v →
          (res.filter (fun w => decide (w.start_frame = s))).length =
            match v with
            | none => 0
            | some _ => 1) := by
  intro starts
  induction starts with
  | nil =>
      intro _ _
      exact ⟨[], rfl, by simp, by simp⟩
  | cons s0 rest ih =>
      intro hnd hf
      obtain ⟨v0, hv0, hw0⟩ := hf s0 (List.mem_cons_self s0 rest)
      obtain ⟨res, hres, hmem, hcount⟩ :=
        ih (List.Nodup.of_cons hnd) (fun s hs => hf s (List.mem_cons_of_mem _ hs))
      have hs0rest : s0 ∉ rest := (List.nodup_cons.mp hnd).1
      have hresnot : res.filter (fun w => decide (w.start_frame = s0)) = [] := by
        apply List.filter_eq_nil_iff.mpr
        intro w hw
        have hwr := (hmem w hw).1
        simp only [decide_eq_true_eq]
        intro heq
        exact hs0rest (heq ▸ hwr)
      cases v0 with
      | none =>
          refine ⟨res, ?_, ?_, ?_⟩
          · show ttmGo f (s0 :: rest) = some res
            simp only [ttmGo, hv0]
            exact hres
          · intro w hw
            obtain ⟨hm2, hP⟩ := hmem w hw
            exact ⟨List.mem_cons_of_mem _ hm2, hP⟩
          · intro s hs v hfv
            rcases List.mem_cons.mp hs with rfl | hs2
            · have hveq : v = none := by
                rw [hv0] at hfv
                exact (Option.some.inj hfv).symm
              subst hveq
              rw [hresnot]
              rfl
            · exact hcount s hs2 v hfv
      | some w0 =>
          obtain ⟨hw0s, hw0P⟩ := hw0 w0 rfl
          refine ⟨w0 :: res, ?_, ?_, ?_⟩
          · show ttmGo f (s0 :: rest) = some (w0 :: res)
            simp only [ttmGo, hv0, hres]
            rfl
          · intro w hw
            rcases List.mem_cons.mp hw with rfl | hw2
            · exact ⟨by rw [hw0s]; exact List.mem_cons_self s0 rest, hw0P⟩
            · obtain ⟨hm2, hP⟩ := hmem w hw2
              exact ⟨List.mem_cons_of_mem _ hm2, hP⟩
          · intro s hs v hfv
            rcases List.mem_cons.mp hs with rfl | hs2
            · have hveq : v = some w0 := by
                rw [hv0] at hfv
                exact (Option.some.inj hfv).symm
              subst hveq
              rw [List.filter_cons, if_pos (by simp [hw0s]), hresnot]
              rfl
            · have hne : ¬ w0.start_frame = s := by
                rw [hw0s]
                intro h
                exact hs0rest (h ▸ hs2)
              rw [List.filter_cons, if_neg (by simpa using hne)]
              exact hcount s hs2 v hfv

/-- C1, counterexample: on a 12-point track with stable zones RI_1 then
RV_1 (window covering the whole track, window start 0), both stable
zones are found, the pair matches no adjacency table, and
`trajectory_tag_match` records no verdict at all for that window — the
loop `continue` skips it instead of recording a `turn_tag = none`
verdict. -/
theorem C1_counterexample :
    find_first_last_zone testTable trajC1 6 = some (some "RI_1", some "RV_1") ∧
    pyRange0 (trajC1.length + 1 - 12) 30 = [0] ∧
    classifyTurn "RI_1" "RV_1" = some none ∧
    trajectory_tag_match testTable trajC1 "右轉" 0 12 30 6 = some [] := by decide

/-- C1, amended: for `1 ≤ window_size ≤ len(trajectory)`, a positive
`slide_step`, and a zone table whose names all contain an underscore
(as the configured zone mapping's do), `trajectory_tag_match` succeeds,
every recorded verdict has a window start from the stride sequence and
`end_frame = start_frame + window_size - 1`, and every window start
yields exactly one verdict — except that a window whose two stable
zones are found but whose pair is in no adjacency table is skipped and
yields no verdict. -/
theorem C1_sliding_window_amended (table : ZoneTable) (traj : List Pt) (tag : String)
    (tid ws ss mf : Nat) (hws1 : 1 ≤ ws) (hwsn : ws ≤ traj.length) (hss : 1 ≤ ss)
    (hnames : ∀ zp ∈ table, '_' ∈ (zp : String × List ZPolygon).1.data) :
    ∃ res, trajectory_tag_match table traj tag tid ws ss mf = some res ∧
      (∀ w ∈ res, w.start_frame ∈ pyRange0 (traj.length + 1 - ws) ss ∧
        w.end_frame = w.start_frame + ws - 1) ∧
      (∀ start ∈ pyRange0 (traj.length + 1 - ws) ss,
        (res.filter (fun w => decide (w.start_frame = start))).length =
          if windowSkipped table traj ws mf start = true then 0 else 1) := by
  have hstartvalid : ∀ s ∈ pyRange0 (traj.length + 1 - ws) ss, s + ws ≤ traj.length := by
    intro s hs
    have := mem_pyRange0_lt _ _ _ hs
    omega
  have hf : ∀ s ∈ pyRange0 (traj.length + 1 - ws) ss,
      ∃ v, windowVerdict table tag tid ws mf traj s = some v ∧
        ∀ w, v = some w → w.start_frame = s ∧ w.end_frame = w.start_frame + ws - 1 := by
    intro s hs
    obtain ⟨hskip, hrec⟩ := windowVerdict_spec table tag tid ws mf traj s hws1
      (hstartvalid s hs) hnames
    cases hsk : windowSkipped table traj ws mf s with
    | true => exact ⟨none, hskip hsk, fun w hw => Option.noConfusion hw⟩
    | false =>
        obtain ⟨w, hw, hws2, hwe⟩ := hrec hsk
        refine ⟨some w, hw, fun w2 hw2 => ?_⟩
        cases Option.some.inj hw2
        exact ⟨hws2, by rw [hws2]; exact hwe⟩
  obtain ⟨res, hres, hmem, hcount⟩ := ttmGo_spec (windowVerdict table tag tid ws mf traj)
    (fun w => w.end_frame = w.start_frame + ws - 1) (pyRange0 (traj.length + 1 - ws) ss)
    (pyRange0_nodup _ _ hss) hf
  refine ⟨res, hres, hmem, ?_⟩
  intro start hstart
  obtain ⟨v, hv, _⟩ := hf start hstart
  have hcnt := hcount start hstart v hv
  obtain ⟨hskip, hrec⟩ := windowVerdict_spec table tag tid ws mf traj start hws1
    (hstartvalid start hstart) hnames
  cases hsk : windowSkipped table traj ws mf start with
  | true =>
      have hv2 : windowVerdict table tag tid ws mf traj start = some none := hskip hsk
      have hveq : v = none := Option.some.inj (hv.symm.trans hv2)
      subst hveq
      rw [if_pos rfl]
      exact hcnt
  | false =>
      obtain ⟨w, hw, -, -⟩ := hrec hsk
      have hveq : v = some w := Option.some.inj (hv.symm.trans hw)
      subst hveq
      rw [if_neg (by exact Bool.false_ne_true)]
      exact hcnt

/-- Witness for C1 (amended), instantiated on the synthetic table and
the 12-point RI_1/RV_1 track. -/
theorem C1_witness :
    ∃ res, trajectory_tag_match testTable trajC1 "右轉" 0 12 30 6 = some res ∧
      (∀ w ∈ res, w.start_frame ∈ pyRange0 (trajC1.length + 1 - 12) 30 ∧
        w.end_frame = w.start_frame + 12 - 1) ∧
      (∀ start ∈ pyRange0 (trajC1.length + 1 - 12) 30,
        (res.filter (fun w => decide (w.start_frame = start))).length =
          if windowSkipped testTable trajC1 12 6 start = true then 0 else 1) :=
  C1_sliding_window_amended testTable trajC1 "右轉" 0 12 30 6 (by decide) (by decide)
    (by decide) (by decide)

/-- The lane-change block emits one of exactly three tag lists. -/
theorem laneChangeTags_cases (pz : List (Option String)) (cz : Option String) :
    laneChangeTags pz cz = [] ∨
    laneChangeTags pz cz = ["lane_change_right", "lane_change"] ∨
    laneChangeTags pz cz = ["lane_change_left", "lane_change"] := by
  rw [laneChangeTags]
  cases laneChangeDir pz cz with
  | none => exact Or.inl rfl
  | some b => cases b
              · exact Or.inr (Or.inr rfl)
              · exact Or.inr (Or.inl rfl)

/-- The turn-detection block emits one of exactly three tag lists. -/
theorem turningTags_cases (table : ZoneTable) (cp : ℚ × ℚ × ℚ)
    (pps : List (ℚ × ℚ × ℚ)) (cz : Option String) :
    turningTags table cp pps cz = [] ∨
    turningTags table cp pps cz = ["turning_left"] ∨
    turningTags table cp pps cz = ["turning_right"] := by
  rw [turningTags]
  cases turningDir table cp pps cz with
  | none => exact Or.inl rfl
  | some b => cases b
              · exact Or.inr (Or.inr rfl)
              · exact Or.inr (Or.inl rfl)

/-- Every action-tag list starts with exactly one movement-state tag
(waiting iff the squared planar speed is below 1/4) and contains no
other movement-state tag. -/
theorem calculate_action_tags_head (table : ZoneTable) (cp : ℚ × ℚ × ℚ)
    (pps : List (ℚ × ℚ × ℚ)) (cz : Option String) (pzs : List (Option String))
    (v : ℚ × ℚ) (h : ℚ) :
    ∃ rest, calculate_action_tags table cp pps cz pzs v h
        = (if v.1 ^ 2 + v.2 ^ 2 < (1 / 2 : ℚ) ^ 2 then "waiting" else "moving") :: rest ∧
      ∀ t ∈ rest, isMovementTag t = false := by
  rw [calculate_action_tags]
  refine ⟨laneChangeTags pzs cz ++ turningTags table cp pps cz, ?_, ?_⟩
  · split <;> simp
  · intro t ht
    rcases List.mem_append.mp ht with h1 | h2
    · rcases laneChangeTags_cases pzs cz with hc | hc | hc
      · rw [hc] at h1
        exact absurd h1 (List.not_mem_nil t)
      · rw [hc] at h1
        rcases List.mem_cons.mp h1 with rfl | h1b
        · decide
        · rcases List.mem_cons.mp h1b with rfl | h1c
          · decide
          · exact absurd h1c (List.not_mem_nil t)
      · rw [hc] at h1
        rcases List.mem_cons.mp h1 with rfl | h1b
        · decide
        · rcases List.mem_cons.mp h1b with rfl | h1c
          · decide
          · exact absurd h1c (List.not_mem_nil t)
    · rcases turningTags_cases table cp pps cz with hc | hc | hc
      · rw [hc] at h2
        exact absurd h2 (List.not_mem_nil t)
      · rw [hc] at h2
        rcases List.mem_cons.mp h2 with rfl | h2b
        · decide
        · exact absurd h2b (List.not_mem_nil t)
      · rw [hc] at h2
        rcases List.mem_cons.mp h2 with rfl | h2b
        · decide
        · exact absurd h2b (List.not_mem_nil t)

/-- The conflict resolver never removes a movement-state tag: the count
of waiting/moving tags is preserved. -/
theorem tag_post_process_countP_movement (l : List String) :
    (tag_post_process l).countP isMovementTag = l.countP isMovementTag := by
  rw [tag_post_process_eq_filter, List.countP_filter]
  apply List.countP_congr
  intro a ha
  cases hm : isMovementTag a
  · simp [hm]
  · simp only [hm, Bool.true_and]
    have hao : a = "waiting" ∨ a = "moving" := by
      rw [isMovementTag] at hm
      simpa using hm
    rcases hao with rfl | rfl <;> simp [tppKeep, turning_tags, chinese_turn_tags]

/-- Deduplication only keeps elements of the input. -/
theorem dedupFirstGo_subset (l : List String) :
    ∀ (seen : List String), ∀ t ∈ dedupFirstGo seen l, t ∈ l := by
  induction l with
  | nil =>
      intro seen t ht
      simp [dedupFirstGo] at ht
  | cons x xs ih =>
      intro seen t ht
      rw [dedupFirstGo] at ht
      by_cases hx : x ∈ seen
      · rw [if_pos hx] at ht
        exact List.mem_cons_of_mem x (ih seen t ht)
      · rw [if_neg hx] at ht
        rcases List.mem_cons.mp ht with rfl | ht2
        · exact List.mem_cons_self t xs
        · exact List.mem_cons_of_mem x (ih (x :: seen) t ht2)

/-- Deduplicating a list headed by a movement tag whose tail has no
movement tags leaves exactly one movement tag. -/
theorem countP_dedup_movement (m : String) (others : List String)
    (hm : isMovementTag m = true) (ho : ∀ t ∈ others, isMovementTag t = false) :
    (dedupFirst (m :: others)).countP isMovementTag = 1 := by
  have hstep : dedupFirst (m :: others) = m :: dedupFirstGo [m] others := by
    rw [dedupFirst, dedupFirstGo, if_neg (List.not_mem_nil m)]
  rw [hstep, List.countP_cons, hm]
  have h0 : (dedupFirstGo [m] others).countP isMovementTag = 0 := by
    apply List.countP_eq_zero.mpr
    intro t ht
    rw [ho t (dedupFirstGo_subset others [m] t ht)]
    exact Bool.false_ne_true
  rw [h0]
  rfl

/-- The classifier chain only ever reports one of the three turn
tags. -/
theorem classifyTurn_values (z1 z2 : String) (t : String)
    (h : classifyTurn z1 z2 = some (some t)) :
    t = "右轉" ∨ t = "左轉" ∨ t = "直行" := by
  rw [classifyTurn] at h
  cases h1 : check_turn z1 z2 "右轉" with
  | none =>
      rw [h1] at h
      cases h
  | some b1 =>
      rw [h1] at h
      cases b1 with
      | true =>
          exact Or.inl (Option.some.inj (Option.some.inj h)).symm
      | false =>
          cases h2 : check_turn z1 z2 "左轉" with
          | none =>
              rw [h2] at h
              cases h
          | some b2 =>
              rw [h2] at h
              cases b2 with
              | true =>
                  exact Or.inr (Or.inl (Option.some.inj (Option.some.inj h)).symm)
              | false =>
                  cases h3 : check_turn z1 z2 "直行" with
                  | none =>
                      rw [h3] at h
                      cases h
                  | some b3 =>
                      rw [h3] at h
                      cases b3 with
                      | true =>
                          exact Or.inr (Or.inr (Option.some.inj (Option.some.inj h)).symm)
                      | false =>
                          exact Option.noConfusion (Option.some.inj h)

/-- A recorded window verdict carries either no turn tag or one of the
three classifier tags. -/
theorem windowVerdict_turn_values (table : ZoneTable) (tag : String) (tid ws mf : Nat)
    (traj : List Pt) (start : Nat) (w : WindowResult)
    (h : windowVerdict table tag tid ws mf traj start = some (some w)) :
    ∀ t, w.turn_tag = some t → t = "右轉" ∨ t = "左轉" ∨ t = "直行" := by
  intro t ht
  rw [windowVerdict] at h
  cases hf : find_first_last_zone table ((traj.drop start).take ws) mf with
  | none =>
      rw [hf] at h
      cases h
  | some pr =>
      obtain ⟨fz, lz⟩ := pr
      rw [hf] at h
      dsimp only at h
      by_cases hc : (pyTruthy fz && pyTruthy lz) = true
      · rw [if_pos hc] at h
        cases fz with
        | none => simp [pyTruthy] at hc
        | some sz =>
            cases lz with
            | none => simp [pyTruthy] at hc
            | some ez =>
                dsimp only at h
                cases hct : classifyTurn sz ez with
                | none =>
                    rw [hct] at h
                    cases h
                | some c =>
                    rw [hct] at h
                    cases c with
                    | none => exact Option.noConfusion (Option.some.inj h)
                    | some t0 =>
                        have hw := Option.some.inj (Option.some.inj h)
                        have hwt : w.turn_tag = some t0 := by rw [← hw]
                        rw [hwt] at ht
                        cases Option.some.inj ht
                        exact classifyTurn_values sz ez _ hct
      · rw [if_neg hc] at h
        have hw := Option.some.inj (Option.some.inj h)
        have hwt : w.turn_tag = none := by rw [← hw]
        rw [hwt] at ht
        exact Option.noConfusion ht

/-- Every verdict in the output of the window loop comes from some
window. -/
theorem ttmGo_mem (f : Nat → Option (Option WindowResult)) :
    ∀ (starts : List Nat) (res : List WindowResult), ttmGo f starts = some res →
      ∀ w ∈ res, ∃ s, f s = some (some w) := by
  intro starts
  induction starts with
  | nil =>
      intro res h w hw
      have hres := Option.some.inj h
      rw [← hres] at hw
      exact absurd hw (List.not_mem_nil w)
  | cons s0 rest ih =>
      intro res h w hw
      rw [ttmGo] at h
      cases hf0 : f s0 with
      | none =>
          rw [hf0] at h
          cases h
      | some v0 =>
          rw [hf0] at h
          cases v0 with
          | none => exact ih res h w hw
          | some w0 =>
              cases hrest : ttmGo f rest with
              | none =>
                  rw [hrest] at h
                  cases h
              | some res2 =>
                  rw [hrest] at h
                  have hres := Option.some.inj h
                  rw [← hres] at hw
                  rcases List.mem_cons.mp hw with rfl | hw2
                  · exact ⟨s0, hf0⟩
                  · exact ih res2 hrest w hw2

/-- The window-tag lists attached to frames contain no movement-state
tag: they are turn tags from the matcher. -/
theorem frame_to_window_tags_no_movement (table : ZoneTable) (traj : List Pt) (tag : String)
    (tid ws ss mf : Nat) (wrs : List WindowResult)
    (hw : trajectory_tag_match table traj tag tid ws ss mf = some wrs) :
    ∀ i tags, frame_to_window_tags wrs i = some tags →
      ∀ t ∈ tags, isMovementTag t = false := by
  intro i tags htags t ht
  rw [frame_to_window_tags] at htags
  by_cases hc : wrs.any (fun w => decide (w.start_frame ≤ i) && decide (i ≤ w.end_frame)) = true
  · rw [if_pos hc] at htags
    have htags2 := Option.some.inj htags
    rw [← htags2] at ht
    obtain ⟨w, hwmem, hwt⟩ := List.mem_filterMap.mp ht
    have hwmem2 : w ∈ wrs := List.mem_of_mem_filter hwmem
    cases hto : w.turn_tag with
    | none =>
        rw [hto] at hwt
        cases hwt
    | some t0 =>
        rw [hto] at hwt
        dsimp only at hwt
        by_cases h0 : t0 = ""
        · rw [if_pos h0] at hwt
          cases hwt
        · rw [if_neg h0] at hwt
          have ht0 : t0 = t := Option.some.inj hwt
          subst ht0
          have hw2 : ttmGo (windowVerdict table tag tid ws mf traj)
              (pyRange0 (traj.length + 1 - ws) ss) = some wrs := hw
          obtain ⟨s, hs⟩ := ttmGo_mem _ _ wrs hw2 w hwmem2
          rcases windowVerdict_turn_values table tag tid ws mf traj s w hs _ hto with
            rfl | rfl | rfl <;> decide
  · rw [if_neg hc] at htags
    cases htags

/-- Every record of the per-frame loop carries exactly one
movement-state tag, whatever the history state. -/
theorem analyzeGo_movement (table : ZoneTable) (tid : Nat) (f2w : Nat → Option (List String))
    (hf2w : ∀ i tags, f2w i = some tags → ∀ t ∈ tags, isMovementTag t = false) :
    ∀ (rows : List TrackRow) (idx : Nat) (prevPts : List (ℚ × ℚ × ℚ))
      (prevZones : List (Option String)),
      ∀ r ∈ analyzeGo table tid f2w idx prevPts prevZones rows,
        r.action_tags.countP isMovementTag = 1 := by
  intro rows
  induction rows with
  | nil =>
      intro idx pp pz r hr
      exact absurd hr (List.not_mem_nil r)
  | cons row rest ih =>
      intro idx pp pz r hr
      rw [analyzeGo] at hr
      rcases List.mem_cons.mp hr with rfl | hr2
      · show (tag_post_process (dedupFirst _)).countP isMovementTag = 1
        rw [tag_post_process_countP_movement]
        obtain ⟨restTags, hhead, hrest⟩ := calculate_action_tags_head table
          (row.xCenter, row.yCenter, row.heading) pp (get_zone table (row.xCenter, row.yCenter))
          pz (row.xVelocity, row.yVelocity) row.heading
        have hmv : isMovementTag
            (if (row.xVelocity, row.yVelocity).1 ^ 2 + (row.xVelocity, row.yVelocity).2 ^ 2
                < (1 / 2 : ℚ) ^ 2 then "waiting" else "moving") = true := by
          split <;> decide
        cases hfw : f2w idx with
        | none =>
            dsimp only
            rw [hhead]
            exact countP_dedup_movement _ _ hmv hrest
        | some wtags =>
            dsimp only
            rw [hhead, List.cons_append]
            apply countP_dedup_movement _ _ hmv
            intro t ht
            rcases List.mem_append.mp ht with h1 | h2
            · exact hrest t h1
            · exact hf2w idx wtags hfw t h2
      · exact ih (idx + 1) _ _ r hr2

/-- C10: every action-tag list from `calculate_action_tags` starts with
exactly one movement-state tag ("waiting" exactly when the squared
planar speed is below 0.5², "moving" otherwise) and contains no other
movement-state tag; `tag_post_process` never removes a movement-state
tag (the waiting/moving count is preserved); hence every frame record
emitted by `analyze_trajectory_frame_by_frame` carries exactly one
movement-state tag. -/
theorem C10_movement_tag :
    (∀ (table : ZoneTable) (cp : ℚ × ℚ × ℚ) (pps : List (ℚ × ℚ × ℚ)) (cz : Option String)
        (pzs : List (Option String)) (v : ℚ × ℚ) (h : ℚ),
      ∃ rest, calculate_action_tags table cp pps cz pzs v h
          = (if v.1 ^ 2 + v.2 ^ 2 < (1 / 2 : ℚ) ^ 2 then "waiting" else "moving") :: rest ∧
        ∀ t ∈ rest, isMovementTag t = false) ∧
    (∀ l : List String,
      (tag_post_process l).countP isMovementTag = l.countP isMovementTag) ∧
    (∀ (table : ZoneTable) (rows : List TrackRow) (tid : Nat) (tag : String)
        (res : List FrameResult),
      analyze_trajectory_frame_by_frame table rows tid tag = some res →
      ∀ r ∈ res, r.action_tags.countP isMovementTag = 1) := by
  refine ⟨calculate_action_tags_head, tag_post_process_countP_movement, ?_⟩
  intro table rows tid tag res hres r hr
  rw [analyze_trajectory_frame_by_frame] at hres
  cases hwr : analyzeWindowResults table (rows.map (fun r => (r.xCenter, r.yCenter))) tag tid with
  | none =>
      rw [hwr] at hres
      cases hres
  | some wrs =>
      rw [hwr] at hres
      have hres2 := Option.some.inj hres
      rw [← hres2] at hr
      have hw2 : trajectory_tag_match table (rows.map (fun r => (r.xCenter, r.yCenter))) tag tid
          (min (rows.map (fun r => (r.xCenter, r.yCenter))).length 330) 30 6 = some wrs := hwr
      exact analyzeGo_movement table tid (frame_to_window_tags wrs)
        (frame_to_window_tags_no_movement table _ tag tid _ 30 6 wrs hw2) rows 0 [] [] r hr

/-- C10 witness: on a concrete one-row track the frame tagger succeeds
and the single record carries exactly one movement-state tag. -/
theorem C10_witness :
    analyze_trajectory_frame_by_frame testTable [trackC2Row 0] 7 "右轉"
      = some [⟨7, 0, ["moving"], ["slow", "constant_speed"]⟩] ∧
    ∀ r ∈ [(⟨7, 0, ["moving"], ["slow", "constant_speed"]⟩ : FrameResult)],
      r.action_tags.countP isMovementTag = 1 :=
  ⟨by decide, C10_movement_tag.2.2 testTable [trackC2Row 0] 7 "右轉" _ (by decide)⟩

/-- C2 counterexample: on the synthetic 50-frame track (20 frames in
RI_1, 10 frames in INT_1 with heading growing 10 degrees per frame, 20
frames in RIV_1) the frame tagger emits `turning_left` on NO frame —
the heading-based detector needs at least 100 previous points — and
instead attaches the window-level 左轉 verdict to every frame,
including all RI_1 and RIV_1 frames. -/
theorem C2_counterexample :
    get_zone testTable ((5 : ℚ), (5 : ℚ)) = some "RI_1" ∧
    get_zone testTable ((25 : ℚ), (5 : ℚ)) = some "INT_1" ∧
    get_zone testTable ((45 : ℚ), (5 : ℚ)) = some "RIV_1" ∧
    (analyze_trajectory_frame_by_frame testTable trackC2 7 "右轉").map
        (fun res => res.map (fun r => decide ("turning_left" ∈ r.action_tags)))
      = some (List.replicate 50 false) ∧
    (analyze_trajectory_frame_by_frame testTable trackC2 7 "右轉").map
        (fun res => res.map (fun r => decide ("左轉" ∈ r.action_tags)))
      = some (List.replicate 50 true) := by
  refine ⟨by decide, by decide, by decide, by decide, by decide⟩

/-- C2 amended: what the tagger actually produces on the synthetic
track — a single window verdict spanning all 50 frames with turn tag
左轉 (from the RI_1 → RIV_1 stable pair), and the action tags
["moving", "左轉"] on every one of the 50 frames. -/
theorem C2_end_to_end_amended :
    (analyzeWindowResults testTable (trackC2.map (fun r => (r.xCenter, r.yCenter))) "右轉" 7).map
        (fun wrs => wrs.map (fun w => (w.start_frame, w.end_frame, w.turn_tag)))
      = some [(0, 49, some "左轉")] ∧
    (analyze_trajectory_frame_by_frame testTable trackC2 7 "右轉").map
        (fun res => res.map (fun r => r.action_tags))
      = some (List.replicate 50 ["moving", "左轉"]) := by
  refine ⟨by decide, by decide⟩
